import Mathlib

/-!
Verification of the eclint line-splitting, definition-resolution and
diagnostic-rendering core (packages `eclint` and `main`).

Bytes are modelled as `Nat` (the Go sources index `[]byte` slices), strings
as Lean `String`, Go maps as association lists iterated in list order (Go map
iteration order is unspecified; the list order stands for one admissible
order), fallible Go functions as `Option`/`Except`, and a Go panic (index out
of range, slice bounds out of range) as `none`.
-/

set_option linter.unusedVariables false

namespace Eclint

/-- Modelled from the spec: the carriage-return byte constant `cr` of the
repository (referenced by `print.go` but declared outside the given files). -/
def cr : Nat := 13

/-- Modelled from the spec: the line-feed byte constant `lf` of the
repository (referenced by `print.go` but declared outside the given files). -/
def lf : Nat := 10

/-- Modelled from the spec: the sentinel string meaning "not configured"
("sentinel string `unset` means not configured", spec section 6); the constant
`UnsetValue` is referenced by `definition.go` but declared in the external
editorconfig library. -/
def UnsetValue : String := "unset"

/-- Modelled from the spec: the fixed default tab width used when
`max_line_length` is enabled and no positive `tab_width` is configured
("tab_width is defaulted to a fixed constant", spec section 4.2). The constant
`DefaultTabWidth` is referenced by `definition.go` but declared elsewhere;
its concrete value is irrelevant to every claim below. -/
def DefaultTabWidth : Int := 8

/-- Go `strconv.Atoi`: optional sign followed by at least one decimal digit,
rejecting anything else and values outside the signed 64-bit range. -/
def goAtoi (s : String) : Except Unit Int :=
  let p : Bool × List Char :=
    match s.data with
    | '-' :: rest => (true, rest)
    | '+' :: rest => (false, rest)
    | cs => (false, cs)
  if p.2 = [] ∨ ¬ p.2.all (fun c => c.isDigit) then Except.error ()
  else
    let n : Nat := p.2.foldl (fun a c => a * 10 + (c.toNat - 48)) 0
    let v : Int := if p.1 then -(n : Int) else (n : Int)
    if v < -(2 ^ 63) ∨ v > 2 ^ 63 - 1 then Except.error () else Except.ok v

/-- The error component of a `bufio.SplitFunc` result as used by
`SplitLines`: `bufio.ErrFinalToken` or `io.EOF` (a `nil` error is `none`). -/
inductive ScanErr where
  | finalToken
  | eofErr
deriving DecidableEq, Repr

/-- The scanning loop of `SplitLines` (print.go lines 124-145). The first
list argument is the still-unscanned suffix `data[i:]`, so `b` is `data[i]`
and `rest` is `data[i+1:]`; hence `rest ≠ []` renders Go's `i < len(data)`
after the `i++` of the CR branch, and the head of `rest` is the byte tested
against LF. A CR byte first checks `i < len(data) && !atEOF` (request more
data), then consumes a following LF; an LF byte terminates the record at
once; after the loop a non-empty buffer becomes the final token. -/
def splitLinesLoop (data : List Nat) (atEOF : Bool) :
    List Nat → Nat → Nat × Option (List Nat) × Option ScanErr
  | b :: rest, i =>
    if b = cr then
      -- i++ happened: the next byte to inspect is the head of rest
      if rest ≠ [] ∧ atEOF = false then
        -- Request more data
        (0, none, none)
      else
        let i2 := match rest with
          | c :: _ => if c = lf then i + 2 else i + 1
          | [] => i + 1
        (i2, some (data.take i2), none)
    else if b = lf then
      (i + 1, some (data.take (i + 1)), none)
    else
      splitLinesLoop data atEOF rest (i + 1)
  | [], i =>
    -- the loop exhausted the buffer without finding a terminator
    if atEOF = false then (0, none, none)
    else if i ≠ 0 then (0, some data, some ScanErr.finalToken)
    else (0, none, some ScanErr.eofErr)

/-- `SplitLines` (print.go lines 123-157): a `bufio.SplitFunc` that keeps the
line terminators on the returned records. -/
def SplitLines (data : List Nat) (atEOF : Bool) :
    Nat × Option (List Nat) × Option ScanErr :=
  splitLinesLoop data atEOF data 0

/-- Every result of the splitting loop has one of four shapes: a non-empty
prefix token with positive advance, a request for more data (only possible
when not at EOF), the final token (the whole non-empty buffer, at EOF), or
end-of-stream (empty buffer, at EOF). -/
theorem splitLinesLoop_shape (data : List Nat) (atEOF : Bool) :
    ∀ rest i, data.drop i = rest → i ≤ data.length →
    (∃ n, 1 ≤ n ∧ n ≤ data.length ∧
        splitLinesLoop data atEOF rest i = (n, some (data.take n), none)) ∨
    (splitLinesLoop data atEOF rest i = (0, none, none) ∧ atEOF = false) ∨
    (splitLinesLoop data atEOF rest i = (0, some data, some ScanErr.finalToken) ∧
        atEOF = true ∧ data ≠ []) ∨
    (splitLinesLoop data atEOF rest i = (0, none, some ScanErr.eofErr) ∧
        atEOF = true ∧ data = []) := by
  intro rest
  induction rest with
  | nil =>
    intro i hdrop hle
    have hlen : data.length ≤ i := by
      by_contra hcon
      have := congrArg List.length hdrop
      simp [List.length_drop] at this
      omega
    have hieq : i = data.length := le_antisymm hle hlen
    by_cases hE : atEOF
    · by_cases hz : data.length = 0
      · right; right; right
        have hdata : data = [] := List.length_eq_zero.mp hz
        subst hE
        simp [splitLinesLoop, hieq, hz, hdata]
      · right; right; left
        subst hE
        refine ⟨?_, rfl, fun hd => hz (by simp [hd])⟩
        simp [splitLinesLoop, hieq, hz]
    · right; left
      simp at hE
      subst hE
      simp [splitLinesLoop]
  | cons b rest ih =>
    intro i hdrop hle
    have hi : i < data.length := by
      by_contra hcon
      rw [List.drop_eq_nil_of_le (by omega)] at hdrop
      exact List.noConfusion hdrop
    have hlen : data.length - i = rest.length + 1 := by
      have := congrArg List.length hdrop
      simpa [List.length_drop] using this
    by_cases hcr : b = cr
    · subst hcr
      cases hA : atEOF with
      | false =>
        cases rest with
        | nil =>
          left
          refine ⟨i + 1, by omega, by omega, ?_⟩
          simp [splitLinesLoop]
        | cons c rest2 =>
          right; left
          exact ⟨by simp [splitLinesLoop], rfl⟩
      | true =>
        cases rest with
        | nil =>
          left
          refine ⟨i + 1, by omega, by omega, ?_⟩
          simp [splitLinesLoop]
        | cons c rest2 =>
          simp only [List.length_cons] at hlen
          by_cases hlf : c = lf
          · left
            refine ⟨i + 2, by omega, by omega, ?_⟩
            simp [splitLinesLoop, hlf]
          · left
            refine ⟨i + 1, by omega, by omega, ?_⟩
            simp [splitLinesLoop, hlf]
    · by_cases hlf : b = lf
      · subst hlf
        left
        refine ⟨i + 1, by omega, by omega, ?_⟩
        simp [splitLinesLoop, hcr]
      · have hdrop' : data.drop (i + 1) = rest := by
          have h1 : (data.drop i).drop 1 = data.drop (i + 1) := List.drop_drop 1 i data
          rw [← h1, hdrop, List.drop_one, List.tail_cons]
        have := ih (i + 1) hdrop' (by omega)
        simpa [splitLinesLoop, hcr, hlf] using this

/-- The same four-shape classification stated for `SplitLines` itself. -/
theorem splitLines_shape (data : List Nat) (atEOF : Bool) :
    (∃ n, 1 ≤ n ∧ n ≤ data.length ∧
        SplitLines data atEOF = (n, some (data.take n), none)) ∨
    (SplitLines data atEOF = (0, none, none) ∧ atEOF = false) ∨
    (SplitLines data atEOF = (0, some data, some ScanErr.finalToken) ∧
        atEOF = true ∧ data ≠ []) ∨
    (SplitLines data atEOF = (0, none, some ScanErr.eofErr) ∧
        atEOF = true ∧ data = []) :=
  splitLinesLoop_shape data atEOF data 0 (by simp) (by omega)

/-- Total number of bytes in a list of reader chunks. -/
def chunksSize (chunks : List (List Nat)) : Nat := (chunks.map List.length).sum

/-- The `bufio.Scanner` loop driving `SplitLines` (as set up by `ReadLines`,
print.go lines 166-185), with explicit fuel for structural recursion.
`buffer` is the scanner's buffered, not-yet-consumed data; `chunks` are the
reads the underlying reader has still to deliver, so `chunks.isEmpty` is the
`atEOF` flag (the chunk list being exhausted models the reader reporting
EOF). A token with `nil` error is emitted and its bytes consumed; a request
for more data (advance 0, no token) appends the next chunk to the buffer;
`bufio.ErrFinalToken` emits the token and stops; any other error (`io.EOF`)
stops the scan with no token. -/
def scanRunFuel : Nat → List Nat → List (List Nat) → List (List Nat)
  | 0, _, _ => []
  | fuel + 1, buffer, chunks =>
    match SplitLines buffer chunks.isEmpty with
    | (n, some tok, none) => tok :: scanRunFuel fuel (buffer.drop n) chunks
    | (_, some tok, some ScanErr.finalToken) => [tok]
    | (_, none, some ScanErr.finalToken) => []
    | (_, _, some ScanErr.eofErr) => []
    | (_, none, none) =>
      match chunks with
      | [] => []
      | c :: cs => scanRunFuel fuel (buffer ++ c) cs

/-- Unfolding equation for `scanRunFuel` at a successor fuel value. -/
theorem scanRunFuel_succ_eq (fuel : Nat) (buffer : List Nat)
    (chunks : List (List Nat)) :
    scanRunFuel (fuel + 1) buffer chunks =
      match SplitLines buffer chunks.isEmpty with
      | (n, some tok, none) => tok :: scanRunFuel fuel (buffer.drop n) chunks
      | (_, some tok, some ScanErr.finalToken) => [tok]
      | (_, none, some ScanErr.finalToken) => []
      | (_, _, some ScanErr.eofErr) => []
      | (_, none, none) =>
        match chunks with
        | [] => []
        | c :: cs => scanRunFuel fuel (buffer ++ c) cs := rfl

/-- Unfolding equation for `scanRunFuel` at fuel zero. -/
theorem scanRunFuel_zero_eq (buffer : List Nat) (chunks : List (List Nat)) :
    scanRunFuel 0 buffer chunks = [] := rfl

/-- The records produced by scanning `chunks` to end of stream: the fuel
bound suffices because every step either consumes a token byte or a chunk. -/
def scanRun (buffer : List Nat) (chunks : List (List Nat)) : List (List Nat) :=
  scanRunFuel (buffer.length + chunksSize chunks + chunks.length + 1) buffer chunks

/-- With sufficient fuel, the concatenation of all records emitted by the
scanner loop is exactly the buffered bytes followed by all chunk bytes. -/
theorem scanRunFuel_concat :
    ∀ fuel buffer chunks,
      buffer.length + chunksSize chunks + chunks.length + 1 ≤ fuel →
      (scanRunFuel fuel buffer chunks).flatten = buffer ++ chunks.flatten := by
  intro fuel
  induction fuel with
  | zero => intro buffer chunks h; omega
  | succ fuel ih =>
    intro buffer chunks h
    rcases splitLines_shape buffer chunks.isEmpty with
      ⟨n, hn1, hn2, heq⟩ | ⟨heq, hE⟩ | ⟨heq, hE, hne⟩ | ⟨heq, hE, hnil⟩
    · rw [scanRunFuel_succ_eq, heq]
      have hrec := ih (buffer.drop n) chunks
        (by simp [List.length_drop]; omega)
      simp only [List.flatten, hrec]
      rw [← List.append_assoc, List.take_append_drop]
    · cases chunks with
      | nil => simp at hE
      | cons c cs =>
        rw [scanRunFuel_succ_eq, heq]
        have hrec := ih (buffer ++ c) cs
          (by simp [chunksSize] at h ⊢; omega)
        simp only [hrec, List.flatten_cons, List.append_assoc]
    · have hchunks : chunks = [] := by
        cases chunks with
        | nil => rfl
        | cons c cs => simp at hE
      subst hchunks
      rw [scanRunFuel_succ_eq, heq]
      simp
    · subst hnil
      have hchunks : chunks = [] := by
        cases chunks with
        | nil => rfl
        | cons c cs => simp at hE
      subst hchunks
      rw [scanRunFuel_succ_eq, heq]
      simp

/-- Every record emitted by the scanner loop is non-empty. -/
theorem scanRunFuel_records_nonempty :
    ∀ fuel buffer chunks r, r ∈ scanRunFuel fuel buffer chunks → r ≠ [] := by
  intro fuel
  induction fuel with
  | zero => intro buffer chunks r hr; rw [scanRunFuel_zero_eq] at hr; simp at hr
  | succ fuel ih =>
    intro buffer chunks r hr
    rcases splitLines_shape buffer chunks.isEmpty with
      ⟨n, hn1, hn2, heq⟩ | ⟨heq, hE⟩ | ⟨heq, hE, hne⟩ | ⟨heq, hE, hnil⟩
    · rw [scanRunFuel_succ_eq, heq] at hr
      rcases List.mem_cons.mp hr with htok | htail
      · subst htok
        have hpos : 0 < (List.take n buffer).length := by
          rw [List.length_take]; omega
        exact List.length_pos.mp hpos
      · exact ih _ _ _ htail
    · cases chunks with
      | nil => simp at hE
      | cons c cs =>
        rw [scanRunFuel_succ_eq, heq] at hr
        exact ih _ _ _ hr
    · rw [scanRunFuel_succ_eq, heq] at hr
      have hrb : r = buffer := List.mem_singleton.mp hr
      subst hrb
      exact hne
    · rw [scanRunFuel_succ_eq, heq] at hr
      simp at hr

/-- The per-record body of the `ReadLines` loop (print.go lines 173-185):
each scanned record is paired with its zero-based index `i` and the flag
`read == fileSize`, where `read` accumulates the bytes consumed so far
(`fileSize` and `read` are `int64` in the source, modelled as `Int`). -/
def tagLines (fileSize : Int) :
    List (List Nat) → Nat → Int → List (Nat × List Nat × Bool)
  | [], _, _ => []
  | l :: ls, i, read =>
    (i, l, decide (read + (l.length : Int) = fileSize)) ::
      tagLines fileSize ls (i + 1) (read + (l.length : Int))

/-- `ReadLines` (print.go lines 164-188): drives `bufio.Scanner` with
`SplitLines` over the reader's chunks and hands each copied record, its
index and the `read == fileSize` flag to the callback; the model returns
the list of `(index, line, flag)` tuples the callback receives. -/
def ReadLines (chunks : List (List Nat)) (fileSize : Int) :
    List (Nat × List Nat × Bool) :=
  tagLines fileSize (scanRun [] chunks) 0 0

/-- The records of `ReadLines` are exactly the scanned records. -/
theorem tagLines_map_records (fileSize : Int) :
    ∀ recs i read, (tagLines fileSize recs i read).map (fun t => t.2.1) = recs := by
  intro recs
  induction recs with
  | nil => intro i read; rfl
  | cons l ls ih => intro i read; simp [tagLines, ih]

/-- C1. The claim states that `SplitLines`, upon a CR byte, consumes a
following in-buffer LF as one CRLF terminator, and requests more input
(advance 0, no token) when the CR is the buffer's last byte and `atEOF` is
false. The code does the reverse: with the buffer `"a\r"` and `atEOF =
false` it returns the record `"a\r"` with the lone CR as terminator even
though the next read could deliver the matching LF, and with the buffer
`"a\r\n"` and `atEOF = false` it requests more input instead of consuming
the CRLF; the CRLF pair is only consumed once `atEOF` is true. -/
theorem SplitLines_cr_observed_behaviour :
    SplitLines [97, 13] false = (2, some [97, 13], none) ∧
    SplitLines [97, 13, 10] false = (0, none, none) ∧
    SplitLines [97, 13, 10] true = (3, some [97, 13, 10], none) ∧
    SplitLines [97, 13] true = (2, some [97, 13], none) := by
  refine ⟨?_, ?_, ?_, ?_⟩ <;> decide

/-- C2. Concatenating, in order, the bytes of all records produced by
splitting a byte stream (`SplitLines` driven to end of stream by the
scanner loop of `ReadLines`) reproduces the original byte sequence exactly,
for every division of the stream into reader chunks and hence for every mix
of CR, LF, CRLF and terminator-less trailing content. -/
theorem ReadLines_concat_exact (chunks : List (List Nat)) (fileSize : Int) :
    ((ReadLines chunks fileSize).map (fun t => t.2.1)).flatten = chunks.flatten := by
  rw [ReadLines, tagLines_map_records]
  rw [scanRun]
  exact scanRunFuel_concat _ [] chunks (by simp)

/-- The flag column of `tagLines`: when every record is non-empty and the
cumulative size accounts for exactly the remaining records, only the last
record's flag is true (the cumulative byte count is strictly increasing, so
it reaches `fileSize` exactly once, at the last record). -/
theorem tagLines_flags (fileSize : Int) :
    ∀ recs read i, (∀ r ∈ recs, r ≠ []) → recs ≠ [] →
      read + ((recs.map List.length).sum : Int) = fileSize →
      (tagLines fileSize recs i read).map (fun t => t.2.2) =
        List.replicate (recs.length - 1) false ++ [true] := by
  intro recs
  induction recs with
  | nil => intro read i h hne; exact absurd rfl hne
  | cons l ls ih =>
    intro read i hall hne hsum
    cases ls with
    | nil =>
      have hflag : read + (l.length : Int) = fileSize := by
        simpa using hsum
      simp [tagLines, hflag]
    | cons l2 ls2 =>
      have hl2 : l2 ≠ [] := hall l2 (by simp)
      have hl2pos : 0 < l2.length := List.length_pos.mpr hl2
      have hflag : ¬ (read + (l.length : Int) = fileSize) := by
        intro hcon
        have hs : ((List.map List.length (l :: l2 :: ls2)).sum : Int)
            = (l.length : Int) := by omega
        have hsn : (List.map List.length (l :: l2 :: ls2)).sum = l.length := by
          exact_mod_cast hs
        have hsplit : (List.map List.length (l :: l2 :: ls2)).sum
            = l.length + (l2.length + (List.map List.length ls2).sum) := by
          simp [List.map_cons, List.sum_cons]
        omega
      have hrec := ih (read + (l.length : Int)) (i + 1)
        (fun r hr => hall r (by simp [hr]))
        (by simp)
        (by
          have hsn : (List.map List.length (l :: l2 :: ls2)).sum
              = l.length + (List.map List.length (l2 :: ls2)).sum := by
            simp [List.map_cons, List.sum_cons]
          rw [hsn, Nat.cast_add] at hsum
          omega)
      have hdec : decide (read + (l.length : Int) = fileSize) = false := by
        simpa using hflag
      have hstep : (tagLines fileSize (l :: l2 :: ls2) i read).map (fun t => t.2.2)
          = decide (read + (l.length : Int) = fileSize) ::
            (tagLines fileSize (l2 :: ls2) (i + 1)
              (read + (l.length : Int))).map (fun t => t.2.2) := rfl
      rw [hstep, hdec, hrec]
      simp [List.replicate_succ]

/-- The index column of `tagLines` counts up from the starting index. -/
theorem tagLines_indices (fileSize : Int) :
    ∀ recs i read,
      (tagLines fileSize recs i read).map (fun t => t.1) =
        List.range' i recs.length := by
  intro recs
  induction recs with
  | nil => intro i read; simp [tagLines]
  | cons l ls ih =>
    intro i read
    simp [tagLines, ih, List.range'_succ]

/-- `tagLines` yields one tuple per record. -/
theorem tagLines_length (fileSize : Int) :
    ∀ recs i read, (tagLines fileSize recs i read).length = recs.length := by
  intro recs
  induction recs with
  | nil => intro i read; rfl
  | cons l ls ih => intro i read; simp [tagLines, ih]

/-- C8 counterexample. The claim quantifies over every input stream whose
declared size equals its byte count and asserts exactly one record is
flagged final; the empty stream (declared size 0) yields no records at all,
so no record is flagged. -/
theorem ReadLines_empty_stream_no_final_flag :
    (List.flatten ([] : List (List Nat))).length = 0 ∧
    ReadLines [] 0 = [] ∧
    ((ReadLines [] 0).map (fun t => t.2.2)).count true = 0 := by
  refine ⟨rfl, ?_, ?_⟩ <;> decide

/-- C8 (amended: for non-empty streams). For every chunked input stream
with at least one byte whose declared total size equals its actual byte
count, `ReadLines` flags exactly one record as final, namely the last one
(the record at which the cumulative bytes consumed equal the declared
size), and pairs the records with consecutive zero-based indices. -/
theorem ReadLines_final_flag (chunks : List (List Nat)) (fileSize : Int)
    (hne : chunks.flatten ≠ [])
    (hsize : fileSize = (chunks.flatten.length : Int)) :
    (ReadLines chunks fileSize).map (fun t => t.2.2) =
      List.replicate ((ReadLines chunks fileSize).length - 1) false ++ [true] ∧
    (ReadLines chunks fileSize).map (fun t => t.1) =
      List.range (ReadLines chunks fileSize).length := by
  have hconcat : (scanRun [] chunks).flatten = chunks.flatten := by
    rw [scanRun]
    exact scanRunFuel_concat _ [] chunks (by simp)
  have hrecne : scanRun [] chunks ≠ [] := by
    intro hcon
    rw [hcon] at hconcat
    exact hne hconcat.symm
  have hall : ∀ r ∈ scanRun [] chunks, r ≠ [] := by
    intro r hr
    exact scanRunFuel_records_nonempty _ _ _ r hr
  have hsum : (0 : Int) + (((scanRun [] chunks).map List.length).sum : Int) = fileSize := by
    rw [hsize, ← List.length_flatten, hconcat]
    simp
  constructor
  · rw [ReadLines, tagLines_flags fileSize _ 0 0 hall hrecne hsum,
      tagLines_length]
  · rw [ReadLines, tagLines_indices, tagLines_length, List.range_eq_range']

/-- Witness for C8 at a concrete stream: the bytes `"a\nb"` of size 3 give
two records, flags `[false, true]` and indices `[0, 1]`. -/
theorem ReadLines_final_flag_witness :
    (ReadLines [[97, 10, 98]] 3).map (fun t => t.2.2) =
      List.replicate ((ReadLines [[97, 10, 98]] 3).length - 1) false ++ [true] ∧
    (ReadLines [[97, 10, 98]] 3).map (fun t => t.1) =
      List.range (ReadLines [[97, 10, 98]] 3).length :=
  ReadLines_final_flag [[97, 10, 98]] 3 (by decide) (by decide)

/-- The fields of `editorconfig.Definition` (external editorconfig-core-go
library) used by definition.go: typed convenience fields plus the raw
key/value map, modelled as an association list (Go map iteration order is
unspecified; the list order stands for one admissible order).
`TrimTrailingWhitespace` and `InsertFinalNewline` are carried so that it can
be stated that the prefix-override mechanism never writes them. -/
structure ECDefinition where
  IndentStyle : String
  IndentSize : String
  Charset : String
  EndOfLine : String
  TabWidth : Int
  TrimTrailingWhitespace : Option Bool
  InsertFinalNewline : Option Bool
  Raw : List (String × String)
deriving DecidableEq

/-- The eclint `definition` struct (definition.go lines 16-27): the embedded
editorconfig definition plus the typed fields not native to it. The Go
`[]byte` marker fields are modelled as the strings they are converted from;
the scan-state fields `LastLine`, `LastIndex` and `InsideBlockComment`,
never touched by `newDefinition`, are omitted. -/
structure EclintDefinition where
  d : ECDefinition
  BlockCommentStart : String
  BlockComment : String
  BlockCommentEnd : String
  MaxLength : Int
  TabWidth : Int
  IndentSize : Int
deriving DecidableEq

/-- Errors returned by `newDefinition`: the indent-size conversion failure
(a wrapped strconv error naming the value) and `ErrConfiguration` wraps
carrying their message text. -/
inductive NewDefError where
  | indentSizeNotInt (value : String)
  | configurationErr (msg : String)
deriving DecidableEq

/-- definition.go lines 35-37: the `utf-8-bom` charset spelling is
normalized to `utf-8 bom`. -/
def charsetStep (def0 : EclintDefinition) : EclintDefinition :=
  if def0.d.Charset = "utf-8-bom"
  then { def0 with d := { def0.d with Charset := "utf-8 bom" } }
  else def0

/-- definition.go lines 39-46: a present, non-sentinel `IndentSize` must
convert to an integer. -/
def indentSizeStep (d : ECDefinition) (def1 : EclintDefinition) :
    Except NewDefError EclintDefinition :=
  if d.IndentSize ≠ "" ∧ d.IndentSize ≠ UnsetValue then
    match goAtoi d.IndentSize with
    | Except.error _ => Except.error (NewDefError.indentSizeNotInt d.IndentSize)
    | Except.ok is => Except.ok { def1 with IndentSize := is }
  else Except.ok def1

/-- definition.go lines 48-68: gated on `IndentStyle` being set, a present
non-sentinel `block_comment_start` activates the feature, an optional
`block_comment` is read (the source re-tests `bs`, not `bc`, against the
sentinel - kept faithfully), and a missing, empty or sentinel
`block_comment_end` is a configuration error. -/
def blockCommentStep (def2 : EclintDefinition) :
    Except NewDefError EclintDefinition :=
  if def2.d.IndentStyle ≠ "" ∧ def2.d.IndentStyle ≠ UnsetValue then
    match List.lookup "block_comment_start" def2.d.Raw with
    | some bs =>
      if bs ≠ "" ∧ bs ≠ UnsetValue then
        let defA := { def2 with BlockCommentStart := bs }
        let defB := match List.lookup "block_comment" defA.d.Raw with
          | some bc =>
            if bc ≠ "" ∧ bs ≠ UnsetValue then { defA with BlockComment := bc }
            else defA
          | none => defA
        match List.lookup "block_comment_end" defB.d.Raw with
        | some be =>
          if be = "" ∨ be = UnsetValue then
            Except.error (NewDefError.configurationErr
              "block_comment_end was expected, none were found")
          else Except.ok { defB with BlockCommentEnd := be }
        | none =>
          Except.error (NewDefError.configurationErr
            "block_comment_end was expected, none were found")
      else Except.ok def2
    | none => Except.ok def2
  else Except.ok def2

/-- definition.go lines 70-85: a present `max_line_length` other than `off`
or the sentinel must parse as a non-negative integer; enabling it defaults
a non-positive tab width. -/
def maxLineLengthStep (def3 : EclintDefinition) :
    Except NewDefError EclintDefinition :=
  match List.lookup "max_line_length" def3.d.Raw with
  | some mll =>
    if mll ≠ "off" ∧ mll ≠ UnsetValue then
      match goAtoi mll with
      | Except.error _ =>
        Except.error (NewDefError.configurationErr
          ("max_line_length expected a non-negative number, got " ++ mll))
      | Except.ok ml =>
        if ml < 0 then
          Except.error (NewDefError.configurationErr
            ("max_line_length expected a non-negative number, got " ++ mll))
        else
          let defC := { def3 with MaxLength := ml }
          Except.ok (if defC.TabWidth ≤ 0
            then { defC with TabWidth := DefaultTabWidth } else defC)
    else Except.ok def3
  | none => Except.ok def3

/-- `newDefinition` (definition.go lines 29-88): build the eclint definition
from the resolved editorconfig definition, validating the configuration;
each early `return nil, err` of the source is an `Except.error`. -/
def newDefinition (d : ECDefinition) : Except NewDefError EclintDefinition :=
  let def0 : EclintDefinition :=
    { d := d, BlockCommentStart := "", BlockComment := "", BlockCommentEnd := "",
      MaxLength := 0, TabWidth := d.TabWidth, IndentSize := 0 }
  match indentSizeStep d (charsetStep def0) with
  | Except.error e => Except.error e
  | Except.ok def2 =>
    match blockCommentStep def2 with
    | Except.error e => Except.error e
    | Except.ok def3 => maxLineLengthStep def3

/-- The charset step touches neither the indent style nor the raw map. -/
theorem charsetStep_preserves (e : EclintDefinition) :
    (charsetStep e).d.IndentStyle = e.d.IndentStyle ∧
    (charsetStep e).d.Raw = e.d.Raw := by
  unfold charsetStep
  split <;> simp

/-- A successful indent-size step leaves the embedded definition unchanged. -/
theorem indentSizeStep_preserves (d : ECDefinition) (e e' : EclintDefinition)
    (h : indentSizeStep d e = Except.ok e') : e'.d = e.d := by
  unfold indentSizeStep at h
  split at h
  · split at h
    · simp at h
    · simp only [Except.ok.injEq] at h
      subst h
      rfl
  · simp only [Except.ok.injEq] at h
    subst h
    rfl

/-- The indent-size step succeeds when `IndentSize` is absent, the sentinel,
or parses as an integer. -/
theorem indentSizeStep_ok (d : ECDefinition) (e : EclintDefinition)
    (hsize : d.IndentSize = "" ∨ d.IndentSize = UnsetValue ∨
        ∃ n, goAtoi d.IndentSize = Except.ok n) :
    ∃ e', indentSizeStep d e = Except.ok e' := by
  unfold indentSizeStep
  rcases hsize with h0 | h0 | ⟨n, hn⟩
  · rw [if_neg (by simp [h0])]
    exact ⟨e, rfl⟩
  · rw [if_neg (by simp [h0])]
    exact ⟨e, rfl⟩
  · by_cases hcond : d.IndentSize ≠ "" ∧ d.IndentSize ≠ UnsetValue
    · rw [if_pos hcond, hn]
      exact ⟨_, rfl⟩
    · rw [if_neg hcond]
      exact ⟨e, rfl⟩

/-- With `IndentStyle` set, a present non-sentinel `block_comment_start`
and an absent, empty or sentinel `block_comment_end`, the block-comment
step fails with the configuration error naming `block_comment_end`. -/
theorem blockCommentStep_missing_end (e : EclintDefinition) (bs : String)
    (hstyle1 : e.d.IndentStyle ≠ "") (hstyle2 : e.d.IndentStyle ≠ UnsetValue)
    (hbs : List.lookup "block_comment_start" e.d.Raw = some bs)
    (hbs1 : bs ≠ "") (hbs2 : bs ≠ UnsetValue)
    (hbe : List.lookup "block_comment_end" e.d.Raw = none ∨
        List.lookup "block_comment_end" e.d.Raw = some "" ∨
        List.lookup "block_comment_end" e.d.Raw = some UnsetValue) :
    blockCommentStep e = Except.error (NewDefError.configurationErr
      "block_comment_end was expected, none were found") := by
  unfold blockCommentStep
  rw [if_pos ⟨hstyle1, hstyle2⟩, hbs]
  simp only []
  rw [if_pos ⟨hbs1, hbs2⟩]
  cases hbc : List.lookup "block_comment" e.d.Raw with
  | none =>
    simp only [hbc]
    rcases hbe with h0 | h0 | h0 <;> simp [h0]
  | some bc =>
    simp only [hbc]
    by_cases hcond : bc ≠ "" ∧ bs ≠ UnsetValue
    · rw [if_pos hcond]
      rcases hbe with h0 | h0 | h0 <;> simp [h0]
    · rw [if_neg hcond]
      rcases hbe with h0 | h0 | h0 <;> simp [h0]

/-- C3 counterexample. The claim quantifies over every raw map with
`block_comment_start` present and `block_comment_end` absent and asserts a
configuration error; but the block-comment validation is gated on
`indent_style` being set, so with an unset `indent_style` the same raw map
resolves successfully. -/
theorem newDefinition_missing_end_unset_style_ok :
    newDefinition
      { IndentStyle := "", IndentSize := "", Charset := "", EndOfLine := "",
        TabWidth := 0, TrimTrailingWhitespace := none,
        InsertFinalNewline := none,
        Raw := [("block_comment_start", "/*")] }
    = Except.ok
      { d := { IndentStyle := "", IndentSize := "", Charset := "",
               EndOfLine := "", TabWidth := 0,
               TrimTrailingWhitespace := none, InsertFinalNewline := none,
               Raw := [("block_comment_start", "/*")] },
        BlockCommentStart := "", BlockComment := "", BlockCommentEnd := "",
        MaxLength := 0, TabWidth := 0, IndentSize := 0 } := rfl

/-- C3 (amended: gated on `indent_style` being set and `indent_size` being
absent, sentinel, or parseable). For every raw configuration map in which
`block_comment_start` is present with a non-empty, non-sentinel value and
`block_comment_end` is absent, empty, or the sentinel value, and whose
`indent_style` is set (non-empty, non-sentinel) and `indent_size` does not
itself fail integer conversion, `newDefinition` returns the configuration
error naming the missing `block_comment_end` key rather than a definition,
before any line is scanned. -/
theorem newDefinition_missing_blockCommentEnd (d : ECDefinition) (bs : String)
    (hstyle1 : d.IndentStyle ≠ "") (hstyle2 : d.IndentStyle ≠ UnsetValue)
    (hsize : d.IndentSize = "" ∨ d.IndentSize = UnsetValue ∨
        ∃ n, goAtoi d.IndentSize = Except.ok n)
    (hbs : List.lookup "block_comment_start" d.Raw = some bs)
    (hbs1 : bs ≠ "") (hbs2 : bs ≠ UnsetValue)
    (hbe : List.lookup "block_comment_end" d.Raw = none ∨
        List.lookup "block_comment_end" d.Raw = some "" ∨
        List.lookup "block_comment_end" d.Raw = some UnsetValue) :
    newDefinition d = Except.error (NewDefError.configurationErr
      "block_comment_end was expected, none were found") := by
  obtain ⟨e2, he2⟩ := indentSizeStep_ok d
    (charsetStep
      { d := d, BlockCommentStart := "", BlockComment := "",
        BlockCommentEnd := "", MaxLength := 0, TabWidth := d.TabWidth,
        IndentSize := 0 }) hsize
  have hnd : newDefinition d =
      match indentSizeStep d (charsetStep
        { d := d, BlockCommentStart := "", BlockComment := "",
          BlockCommentEnd := "", MaxLength := 0, TabWidth := d.TabWidth,
          IndentSize := 0 }) with
      | Except.error e => Except.error e
      | Except.ok def2 =>
        match blockCommentStep def2 with
        | Except.error e => Except.error e
        | Except.ok def3 => maxLineLengthStep def3 := rfl
  rw [hnd, he2]
  show (match blockCommentStep e2 with
    | Except.error e => Except.error e
    | Except.ok def3 => maxLineLengthStep def3) = _
  have hd2 := indentSizeStep_preserves d _ _ he2
  have hcs := charsetStep_preserves
    { d := d, BlockCommentStart := "", BlockComment := "",
      BlockCommentEnd := "", MaxLength := 0, TabWidth := d.TabWidth,
      IndentSize := 0 }
  have hstyle : e2.d.IndentStyle = d.IndentStyle := by
    rw [hd2, hcs.1]
  have hraw : e2.d.Raw = d.Raw := by
    rw [hd2, hcs.2]
  rw [blockCommentStep_missing_end e2 bs
    (by rw [hstyle]; exact hstyle1) (by rw [hstyle]; exact hstyle2)
    (by rw [hraw]; exact hbs) hbs1 hbs2
    (by rw [hraw]; exact hbe)]

/-- Witness for C3's amended theorem at a concrete raw map with
`indent_style = space` and `block_comment_start = "/*"` but no
`block_comment_end` key. -/
theorem newDefinition_missing_blockCommentEnd_witness :
    newDefinition
      { IndentStyle := "space", IndentSize := "", Charset := "",
        EndOfLine := "", TabWidth := 0, TrimTrailingWhitespace := none,
        InsertFinalNewline := none,
        Raw := [("block_comment_start", "/*")] }
    = Except.error (NewDefError.configurationErr
      "block_comment_end was expected, none were found") :=
  newDefinition_missing_blockCommentEnd _ "/*"
    (by decide) (by decide) (Or.inl rfl) (by decide) (by decide) (by decide)
    (Or.inl (by decide))

/-- Go `strings.HasPrefix`, at character granularity (configuration keys
and prefixes are ASCII, where Go's byte granularity coincides). -/
def goHasPrefix (s pre : String) : Bool := pre.data.isPrefixOf s.data

/-- Go's string slicing `s[n:]`, at character granularity. -/
def goDropChars (s : String) (n : Nat) : String := String.mk (s.data.drop n)

/-- Go map assignment `m[k] = v` on the association-list model: replace the
existing binding if the key is present, append it otherwise. -/
def mapInsert : List (String × String) → String → String → List (String × String)
  | [], k, v => [(k, v)]
  | (k0, v0) :: rest, k, v =>
    if k0 = k then (k0, v) :: rest else (k0, v0) :: mapInsert rest k v

/-- Errors of `OverrideDefinitionUsingPrefix`: the tab-width integer
conversion failure and the `ErrNotImplemented` wrap naming the key that
cannot be overridden. -/
inductive OvrError where
  | tabWidthNotInt (value : String)
  | notImplemented (key : String)
deriving DecidableEq

/-- The loop of `OverrideDefinitionUsingPrefix` (definition.go lines
109-136), iterating the snapshot of the raw map's entries in list order (Go
map iteration order is unspecified, so the list order stands for one
admissible order; keys inserted during the iteration are modelled as not
re-visited, which Go's range semantics permits). The un-prefixed copy
`def.Raw[nk] = v` is written before the switch, so it is in place even when
the switch then fails; the mutated definition is returned next to the
error, mirroring mutation through the Go pointer. -/
def overrideLoop (pre : String) :
    List (String × String) → ECDefinition → ECDefinition × Option OvrError
  | [], d => (d, none)
  | (k, v) :: rest, d =>
    if goHasPrefix k pre then
      let nk := goDropChars k pre.length
      let d1 := { d with Raw := mapInsert d.Raw nk v }
      if nk = "indent_style" then
        overrideLoop pre rest { d1 with IndentStyle := v }
      else if nk = "indent_size" then
        overrideLoop pre rest { d1 with IndentSize := v }
      else if nk = "charset" then
        overrideLoop pre rest { d1 with Charset := v }
      else if nk = "end_of_line" then
        overrideLoop pre rest { d1 with EndOfLine := v }
      else if nk = "tab_width" then
        match goAtoi v with
        | Except.error _ => (d1, some (OvrError.tabWidthNotInt v))
        | Except.ok i => overrideLoop pre rest { d1 with TabWidth := i }
      else if nk = "trim_trailing_whitespace" then
        (d1, some (OvrError.notImplemented nk))
      else if nk = "insert_final_newline" then
        (d1, some (OvrError.notImplemented nk))
      else overrideLoop pre rest d1
    else overrideLoop pre rest d

/-- `OverrideDefinitionUsingPrefix` (definition.go lines 108-139). -/
def OverrideDefinitionUsingPrefix (d : ECDefinition) (pre : String) :
    ECDefinition × Option OvrError :=
  overrideLoop pre d.Raw d

/-- The prefixed form of a configuration key. -/
def mkKey (pre x : String) : String := String.mk (pre.data ++ x.data)

/-- A prefixed key passes the prefix test. -/
theorem goHasPrefix_mkKey (pre x : String) :
    goHasPrefix (mkKey pre x) pre = true := by
  simp only [goHasPrefix, mkKey]
  rw [List.isPrefixOf_iff_prefix]
  exact ⟨x.data, rfl⟩

/-- Stripping the prefix from a prefixed key recovers the key. -/
theorem goDropChars_mkKey (pre x : String) :
    goDropChars (mkKey pre x) pre.length = x := by
  show String.mk ((pre.data ++ x.data).drop pre.data.length) = x
  rw [List.drop_left]

/-- The same statement under the name used by the proofs below. -/
theorem goDropChars_mkKey_len (pre x : String) :
    goDropChars (mkKey pre x) pre.length = x := goDropChars_mkKey pre x

/-- Two prefixed keys with the same prefix agree iff their stems agree. -/
theorem mkKey_inj (pre : String) {a b : String} (h : mkKey pre a = mkKey pre b) :
    a = b := by
  have h2 := congrArg (fun s => goDropChars s pre.length) h
  simp only [] at h2
  rw [goDropChars_mkKey, goDropChars_mkKey] at h2
  exact h2

/-- Every key passing the prefix test is the prefixed form of its stem. -/
theorem key_eq_mkKey (k pre : String) (h : goHasPrefix k pre = true) :
    k = mkKey pre (goDropChars k pre.length) := by
  unfold goHasPrefix at h
  rw [List.isPrefixOf_iff_prefix] at h
  obtain ⟨t, ht⟩ := h
  apply String.ext
  show k.data = pre.data ++ (k.data.drop pre.data.length)
  rw [← ht, List.drop_left]

/-- Looking up the inserted key finds the inserted value. -/
theorem lookup_mapInsert_self (m : List (String × String)) (k v : String) :
    List.lookup k (mapInsert m k v) = some v := by
  induction m with
  | nil => simp [mapInsert, List.lookup]
  | cons e rest ih =>
    obtain ⟨k0, v0⟩ := e
    by_cases h : k0 = k
    · subst h
      simp [mapInsert, List.lookup]
    · simp only [mapInsert, if_neg h, List.lookup]
      rw [show (k == k0) = false from
        beq_eq_false_iff_ne.mpr (fun hc => h hc.symm)]
      exact ih

/-- The override loop never writes the typed `TrimTrailingWhitespace` or
`InsertFinalNewline` fields, whatever entries it processes. -/
theorem overrideLoop_never_writes_ttw_ifn (pre : String) :
    ∀ entries d,
      ((overrideLoop pre entries d).1.TrimTrailingWhitespace
          = d.TrimTrailingWhitespace) ∧
      ((overrideLoop pre entries d).1.InsertFinalNewline
          = d.InsertFinalNewline) := by
  intro entries
  induction entries with
  | nil => intro d; exact ⟨rfl, rfl⟩
  | cons e rest ih =>
    intro d
    obtain ⟨k, v⟩ := e
    by_cases hp : goHasPrefix k pre = true
    · simp only [overrideLoop, hp, if_true]
      repeat' split
      all_goals first
        | exact ⟨(ih _).1, (ih _).2⟩
        | exact ⟨rfl, rfl⟩
    · have hb : goHasPrefix k pre = false := by
        simpa using hp
      simp only [overrideLoop, hb, Bool.false_eq_true, if_false]
      exact ⟨(ih _).1, (ih _).2⟩

/-- If the entries contain a prefixed `trim_trailing_whitespace` or
`insert_final_newline` key, the override loop fails with some error. -/
theorem overrideLoop_errors_of_forbidden (pre : String) :
    ∀ entries d v,
      ((mkKey pre "trim_trailing_whitespace", v) ∈ entries ∨
       (mkKey pre "insert_final_newline", v) ∈ entries) →
      (overrideLoop pre entries d).2.isSome = true := by
  intro entries
  induction entries with
  | nil => intro d v hmem; rcases hmem with h | h <;> simp at h
  | cons e rest ih =>
    intro d v hmem
    obtain ⟨k, v'⟩ := e
    rcases hmem with hm | hm
    all_goals rcases List.mem_cons.mp hm with hhead | htail
    · obtain ⟨hk, hv⟩ := Prod.mk.injEq _ _ _ _ ▸ hhead.symm
      subst hk
      simp [overrideLoop, goHasPrefix_mkKey, goDropChars_mkKey, goDropChars_mkKey_len]
    · by_cases hp : goHasPrefix k pre = true
      · simp only [overrideLoop, hp, if_true]
        repeat' split
        all_goals first
          | exact ih _ _ (Or.inl htail)
          | rfl
      · have hb : goHasPrefix k pre = false := by simpa using hp
        simp only [overrideLoop, hb, Bool.false_eq_true, if_false]
        exact ih _ _ (Or.inl htail)
    · obtain ⟨hk, hv⟩ := Prod.mk.injEq _ _ _ _ ▸ hhead.symm
      subst hk
      simp [overrideLoop, goHasPrefix_mkKey, goDropChars_mkKey, goDropChars_mkKey_len]
    · by_cases hp : goHasPrefix k pre = true
      · simp only [overrideLoop, hp, if_true]
        repeat' split
        all_goals first
          | exact ih _ _ (Or.inr htail)
          | rfl
      · have hb : goHasPrefix k pre = false := by simpa using hp
        simp only [overrideLoop, hb, Bool.false_eq_true, if_false]
        exact ih _ _ (Or.inr htail)

/-- Without a prefixed `indent_style` entry the loop leaves `IndentStyle`
unchanged (also when it stops early on an error). -/
theorem overrideLoop_pres_indentStyle (pre : String) :
    ∀ entries (d : ECDefinition),
      (∀ v, (mkKey pre "indent_style", v) ∉ entries) →
      (overrideLoop pre entries d).1.IndentStyle = d.IndentStyle := by
  intro entries
  induction entries with
  | nil => intro d h; rfl
  | cons e rest ih =>
    intro d hnot
    obtain ⟨k, v⟩ := e
    have hrest : ∀ v', (mkKey pre "indent_style", v') ∉ rest :=
      fun v' hv' => hnot v' (List.mem_cons_of_mem _ hv')
    by_cases hp : goHasPrefix k pre = true
    · have hne : goDropChars k pre.length ≠ "indent_style" := by
        intro hcon
        apply hnot v
        rw [key_eq_mkKey k pre hp, hcon]
        exact List.mem_cons_self _ _
      simp only [overrideLoop, hp, if_true, hne, ite_false]
      repeat' split
      all_goals first
        | exact ih _ hrest
        | rfl
    · have hb : goHasPrefix k pre = false := by simpa using hp
      simp only [overrideLoop, hb, Bool.false_eq_true, if_false]
      exact ih _ hrest

/-- With a prefixed `indent_style` entry among unique keys, the loop either
fails or ends with `IndentStyle` overwritten to the entry's value. -/
theorem overrideLoop_sets_indentStyle (pre : String) :
    ∀ entries (d : ECDefinition) v,
      ((entries.map Prod.fst).Nodup) →
      (mkKey pre "indent_style", v) ∈ entries →
      (overrideLoop pre entries d).2.isSome = true ∨
      (overrideLoop pre entries d).1.IndentStyle = v := by
  intro entries
  induction entries with
  | nil => intro d v _ hmem; simp at hmem
  | cons e rest ih =>
    intro d v hnd hmem
    obtain ⟨k, v'⟩ := e
    have hndrest : (rest.map Prod.fst).Nodup :=
      (List.nodup_cons.mp (by simpa using hnd)).2
    have hknot : k ∉ rest.map Prod.fst :=
      (List.nodup_cons.mp (by simpa using hnd)).1
    rcases List.mem_cons.mp hmem with hhead | htail
    · obtain ⟨hk, hv⟩ := Prod.mk.injEq _ _ _ _ ▸ hhead.symm
      subst hk
      subst hv
      right
      have hknotin : ∀ w, (mkKey pre "indent_style", w) ∉ rest := by
        intro w hw
        exact hknot (List.mem_map_of_mem Prod.fst hw)
      simp only [overrideLoop, goHasPrefix_mkKey, if_true, goDropChars_mkKey,
        goDropChars_mkKey_len, ite_true]
      rw [overrideLoop_pres_indentStyle pre rest _ hknotin]
    · by_cases hp : goHasPrefix k pre = true
      · simp only [overrideLoop, hp, if_true]
        repeat' split
        all_goals first
          | exact ih _ _ hndrest htail
          | exact Or.inl rfl
      · have hb : goHasPrefix k pre = false := by simpa using hp
        simp only [overrideLoop, hb, Bool.false_eq_true, if_false]
        exact ih _ _ hndrest htail

/-- Without a prefixed `indent_size` entry the loop leaves `IndentSize`
unchanged (also when it stops early on an error). -/
theorem overrideLoop_pres_indentSize (pre : String) :
    ∀ entries (d : ECDefinition),
      (∀ v, (mkKey pre "indent_size", v) ∉ entries) →
      (overrideLoop pre entries d).1.IndentSize = d.IndentSize := by
  intro entries
  induction entries with
  | nil => intro d h; rfl
  | cons e rest ih =>
    intro d hnot
    obtain ⟨k, v⟩ := e
    have hrest : ∀ v', (mkKey pre "indent_size", v') ∉ rest :=
      fun v' hv' => hnot v' (List.mem_cons_of_mem _ hv')
    by_cases hp : goHasPrefix k pre = true
    · have hne : goDropChars k pre.length ≠ "indent_size" := by
        intro hcon
        apply hnot v
        rw [key_eq_mkKey k pre hp, hcon]
        exact List.mem_cons_self _ _
      simp only [overrideLoop, hp, if_true, hne, ite_false]
      repeat' split
      all_goals first
        | exact ih _ hrest
        | rfl
    · have hb : goHasPrefix k pre = false := by simpa using hp
      simp only [overrideLoop, hb, Bool.false_eq_true, if_false]
      exact ih _ hrest

/-- With a prefixed `indent_size` entry among unique keys, the loop either
fails or ends with `IndentSize` overwritten to the entry's value. -/
theorem overrideLoop_sets_indentSize (pre : String) :
    ∀ entries (d : ECDefinition) v,
      ((entries.map Prod.fst).Nodup) →
      (mkKey pre "indent_size", v) ∈ entries →
      (overrideLoop pre entries d).2.isSome = true ∨
      (overrideLoop pre entries d).1.IndentSize = v := by
  intro entries
  induction entries with
  | nil => intro d v _ hmem; simp at hmem
  | cons e rest ih =>
    intro d v hnd hmem
    obtain ⟨k, v'⟩ := e
    have hndrest : (rest.map Prod.fst).Nodup :=
      (List.nodup_cons.mp (by simpa using hnd)).2
    have hknot : k ∉ rest.map Prod.fst :=
      (List.nodup_cons.mp (by simpa using hnd)).1
    rcases List.mem_cons.mp hmem with hhead | htail
    · obtain ⟨hk, hv⟩ := Prod.mk.injEq _ _ _ _ ▸ hhead.symm
      subst hk
      subst hv
      right
      have hknotin : ∀ w, (mkKey pre "indent_size", w) ∉ rest := by
        intro w hw
        exact hknot (List.mem_map_of_mem Prod.fst hw)
      have hred : overrideLoop pre ((mkKey pre "indent_size", v') :: rest) d
          = overrideLoop pre rest
            { d with Raw := mapInsert d.Raw "indent_size" v', IndentSize := v' } := by
        simp [overrideLoop, goHasPrefix_mkKey, goDropChars_mkKey,
          goDropChars_mkKey_len]
      rw [hred, overrideLoop_pres_indentSize pre rest _ hknotin]
    · by_cases hp : goHasPrefix k pre = true
      · simp only [overrideLoop, hp, if_true]
        repeat' split
        all_goals first
          | exact ih _ _ hndrest htail
          | exact Or.inl rfl
      · have hb : goHasPrefix k pre = false := by simpa using hp
        simp only [overrideLoop, hb, Bool.false_eq_true, if_false]
        exact ih _ _ hndrest htail

/-- Without a prefixed `charset` entry the loop leaves `Charset`
unchanged (also when it stops early on an error). -/
theorem overrideLoop_pres_charset (pre : String) :
    ∀ entries (d : ECDefinition),
      (∀ v, (mkKey pre "charset", v) ∉ entries) →
      (overrideLoop pre entries d).1.Charset = d.Charset := by
  intro entries
  induction entries with
  | nil => intro d h; rfl
  | cons e rest ih =>
    intro d hnot
    obtain ⟨k, v⟩ := e
    have hrest : ∀ v', (mkKey pre "charset", v') ∉ rest :=
      fun v' hv' => hnot v' (List.mem_cons_of_mem _ hv')
    by_cases hp : goHasPrefix k pre = true
    · have hne : goDropChars k pre.length ≠ "charset" := by
        intro hcon
        apply hnot v
        rw [key_eq_mkKey k pre hp, hcon]
        exact List.mem_cons_self _ _
      simp only [overrideLoop, hp, if_true, hne, ite_false]
      repeat' split
      all_goals first
        | exact ih _ hrest
        | rfl
    · have hb : goHasPrefix k pre = false := by simpa using hp
      simp only [overrideLoop, hb, Bool.false_eq_true, if_false]
      exact ih _ hrest

/-- With a prefixed `charset` entry among unique keys, the loop either
fails or ends with `Charset` overwritten to the entry's value. -/
theorem overrideLoop_sets_charset (pre : String) :
    ∀ entries (d : ECDefinition) v,
      ((entries.map Prod.fst).Nodup) →
      (mkKey pre "charset", v) ∈ entries →
      (overrideLoop pre entries d).2.isSome = true ∨
      (overrideLoop pre entries d).1.Charset = v := by
  intro entries
  induction entries with
  | nil => intro d v _ hmem; simp at hmem
  | cons e rest ih =>
    intro d v hnd hmem
    obtain ⟨k, v'⟩ := e
    have hndrest : (rest.map Prod.fst).Nodup :=
      (List.nodup_cons.mp (by simpa using hnd)).2
    have hknot : k ∉ rest.map Prod.fst :=
      (List.nodup_cons.mp (by simpa using hnd)).1
    rcases List.mem_cons.mp hmem with hhead | htail
    · obtain ⟨hk, hv⟩ := Prod.mk.injEq _ _ _ _ ▸ hhead.symm
      subst hk
      subst hv
      right
      have hknotin : ∀ w, (mkKey pre "charset", w) ∉ rest := by
        intro w hw
        exact hknot (List.mem_map_of_mem Prod.fst hw)
      have hred : overrideLoop pre ((mkKey pre "charset", v') :: rest) d
          = overrideLoop pre rest
            { d with Raw := mapInsert d.Raw "charset" v', Charset := v' } := by
        simp [overrideLoop, goHasPrefix_mkKey, goDropChars_mkKey,
          goDropChars_mkKey_len]
      rw [hred, overrideLoop_pres_charset pre rest _ hknotin]
    · by_cases hp : goHasPrefix k pre = true
      · simp only [overrideLoop, hp, if_true]
        repeat' split
        all_goals first
          | exact ih _ _ hndrest htail
          | exact Or.inl rfl
      · have hb : goHasPrefix k pre = false := by simpa using hp
        simp only [overrideLoop, hb, Bool.false_eq_true, if_false]
        exact ih _ _ hndrest htail

/-- Without a prefixed `end_of_line` entry the loop leaves `EndOfLine`
unchanged (also when it stops early on an error). -/
theorem overrideLoop_pres_endOfLine (pre : String) :
    ∀ entries (d : ECDefinition),
      (∀ v, (mkKey pre "end_of_line", v) ∉ entries) →
      (overrideLoop pre entries d).1.EndOfLine = d.EndOfLine := by
  intro entries
  induction entries with
  | nil => intro d h; rfl
  | cons e rest ih =>
    intro d hnot
    obtain ⟨k, v⟩ := e
    have hrest : ∀ v', (mkKey pre "end_of_line", v') ∉ rest :=
      fun v' hv' => hnot v' (List.mem_cons_of_mem _ hv')
    by_cases hp : goHasPrefix k pre = true
    · have hne : goDropChars k pre.length ≠ "end_of_line" := by
        intro hcon
        apply hnot v
        rw [key_eq_mkKey k pre hp, hcon]
        exact List.mem_cons_self _ _
      simp only [overrideLoop, hp, if_true, hne, ite_false]
      repeat' split
      all_goals first
        | exact ih _ hrest
        | rfl
    · have hb : goHasPrefix k pre = false := by simpa using hp
      simp only [overrideLoop, hb, Bool.false_eq_true, if_false]
      exact ih _ hrest

/-- With a prefixed `end_of_line` entry among unique keys, the loop either
fails or ends with `EndOfLine` overwritten to the entry's value. -/
theorem overrideLoop_sets_endOfLine (pre : String) :
    ∀ entries (d : ECDefinition) v,
      ((entries.map Prod.fst).Nodup) →
      (mkKey pre "end_of_line", v) ∈ entries →
      (overrideLoop pre entries d).2.isSome = true ∨
      (overrideLoop pre entries d).1.EndOfLine = v := by
  intro entries
  induction entries with
  | nil => intro d v _ hmem; simp at hmem
  | cons e rest ih =>
    intro d v hnd hmem
    obtain ⟨k, v'⟩ := e
    have hndrest : (rest.map Prod.fst).Nodup :=
      (List.nodup_cons.mp (by simpa using hnd)).2
    have hknot : k ∉ rest.map Prod.fst :=
      (List.nodup_cons.mp (by simpa using hnd)).1
    rcases List.mem_cons.mp hmem with hhead | htail
    · obtain ⟨hk, hv⟩ := Prod.mk.injEq _ _ _ _ ▸ hhead.symm
      subst hk
      subst hv
      right
      have hknotin : ∀ w, (mkKey pre "end_of_line", w) ∉ rest := by
        intro w hw
        exact hknot (List.mem_map_of_mem Prod.fst hw)
      have hred : overrideLoop pre ((mkKey pre "end_of_line", v') :: rest) d
          = overrideLoop pre rest
            { d with Raw := mapInsert d.Raw "end_of_line" v', EndOfLine := v' } := by
        simp [overrideLoop, goHasPrefix_mkKey, goDropChars_mkKey,
          goDropChars_mkKey_len]
      rw [hred, overrideLoop_pres_endOfLine pre rest _ hknotin]
    · by_cases hp : goHasPrefix k pre = true
      · simp only [overrideLoop, hp, if_true]
        repeat' split
        all_goals first
          | exact ih _ _ hndrest htail
          | exact Or.inl rfl
      · have hb : goHasPrefix k pre = false := by simpa using hp
        simp only [overrideLoop, hb, Bool.false_eq_true, if_false]
        exact ih _ _ hndrest htail

/-- Without a prefixed `tab_width` entry the loop leaves `TabWidth`
unchanged (also when it stops early on an error). -/
theorem overrideLoop_pres_tabWidth (pre : String) :
    ∀ entries (d : ECDefinition),
      (∀ v, (mkKey pre "tab_width", v) ∉ entries) →
      (overrideLoop pre entries d).1.TabWidth = d.TabWidth := by
  intro entries
  induction entries with
  | nil => intro d h; rfl
  | cons e rest ih =>
    intro d hnot
    obtain ⟨k, v⟩ := e
    have hrest : ∀ v', (mkKey pre "tab_width", v') ∉ rest :=
      fun v' hv' => hnot v' (List.mem_cons_of_mem _ hv')
    by_cases hp : goHasPrefix k pre = true
    · have hne : goDropChars k pre.length ≠ "tab_width" := by
        intro hcon
        apply hnot v
        rw [key_eq_mkKey k pre hp, hcon]
        exact List.mem_cons_self _ _
      simp only [overrideLoop, hp, if_true, hne, ite_false]
      repeat' split
      all_goals first
        | exact ih _ hrest
        | rfl
    · have hb : goHasPrefix k pre = false := by simpa using hp
      simp only [overrideLoop, hb, Bool.false_eq_true, if_false]
      exact ih _ hrest

/-- With a prefixed `tab_width` entry among unique keys whose value parses
as an integer, the loop either fails or ends with `TabWidth` overwritten to
the parsed value. -/
theorem overrideLoop_sets_tabWidth (pre : String) :
    ∀ entries (d : ECDefinition) v n,
      ((entries.map Prod.fst).Nodup) →
      (mkKey pre "tab_width", v) ∈ entries →
      goAtoi v = Except.ok n →
      (overrideLoop pre entries d).2.isSome = true ∨
      (overrideLoop pre entries d).1.TabWidth = n := by
  intro entries
  induction entries with
  | nil => intro d v n _ hmem _; simp at hmem
  | cons e rest ih =>
    intro d v n hnd hmem hok
    obtain ⟨k, v'⟩ := e
    have hndrest : (rest.map Prod.fst).Nodup :=
      (List.nodup_cons.mp (by simpa using hnd)).2
    have hknot : k ∉ rest.map Prod.fst :=
      (List.nodup_cons.mp (by simpa using hnd)).1
    rcases List.mem_cons.mp hmem with hhead | htail
    · obtain ⟨hk, hv⟩ := Prod.mk.injEq _ _ _ _ ▸ hhead.symm
      subst hk
      subst hv
      right
      have hknotin : ∀ w, (mkKey pre "tab_width", w) ∉ rest := by
        intro w hw
        exact hknot (List.mem_map_of_mem Prod.fst hw)
      have hred : overrideLoop pre ((mkKey pre "tab_width", v') :: rest) d
          = overrideLoop pre rest
            { d with Raw := mapInsert d.Raw "tab_width" v', TabWidth := n } := by
        simp [overrideLoop, goHasPrefix_mkKey, goDropChars_mkKey,
          goDropChars_mkKey_len, hok]
      rw [hred, overrideLoop_pres_tabWidth pre rest _ hknotin]
    · by_cases hp : goHasPrefix k pre = true
      · simp only [overrideLoop, hp, if_true]
        repeat' split
        all_goals first
          | exact ih _ _ _ hndrest htail hok
          | exact Or.inl rfl
      · have hb : goHasPrefix k pre = false := by simpa using hp
        simp only [overrideLoop, hb, Bool.false_eq_true, if_false]
        exact ih _ _ _ hndrest htail hok

/-- When every prefixed `tab_width` entry parses as an integer, a prefixed
`trim_trailing_whitespace` or `insert_final_newline` entry makes the loop
fail with the distinct not-supported (`ErrNotImplemented`) error. -/
theorem overrideLoop_forbidden_not_supported (pre : String) :
    ∀ entries (d : ECDefinition) v,
      (∀ k0 tv, (k0, tv) ∈ entries → goHasPrefix k0 pre = true →
        goDropChars k0 pre.length = "tab_width" →
        ∃ n, goAtoi tv = Except.ok n) →
      ((mkKey pre "trim_trailing_whitespace", v) ∈ entries ∨
       (mkKey pre "insert_final_newline", v) ∈ entries) →
      (overrideLoop pre entries d).2
          = some (OvrError.notImplemented "trim_trailing_whitespace") ∨
      (overrideLoop pre entries d).2
          = some (OvrError.notImplemented "insert_final_newline") := by
  intro entries
  induction entries with
  | nil => intro d v _ hmem; rcases hmem with h | h <;> simp at h
  | cons e rest ih =>
    intro d v hTW hmem
    obtain ⟨k, v'⟩ := e
    have hTWrest : ∀ k0 tv, (k0, tv) ∈ rest → goHasPrefix k0 pre = true →
        goDropChars k0 pre.length = "tab_width" →
        ∃ n, goAtoi tv = Except.ok n :=
      fun k0 tv h0 h1 h2 => hTW k0 tv (List.mem_cons_of_mem _ h0) h1 h2
    rcases hmem with hm | hm
    all_goals rcases List.mem_cons.mp hm with hhead | htail
    · obtain ⟨hk, hv⟩ := Prod.mk.injEq _ _ _ _ ▸ hhead.symm
      subst hk
      left
      simp [overrideLoop, goHasPrefix_mkKey, goDropChars_mkKey,
        goDropChars_mkKey_len]
    · by_cases hp : goHasPrefix k pre = true
      · by_cases htw : goDropChars k pre.length = "tab_width"
        · have hk2 : k = mkKey pre "tab_width" := by
            rw [key_eq_mkKey k pre hp, htw]
          subst hk2
          obtain ⟨n, hn⟩ := hTW _ v' (List.mem_cons_self _ _)
            (goHasPrefix_mkKey pre _) (goDropChars_mkKey pre _)
          have hred : overrideLoop pre ((mkKey pre "tab_width", v') :: rest) d
              = overrideLoop pre rest
                { d with Raw := mapInsert d.Raw "tab_width" v', TabWidth := n } := by
            simp [overrideLoop, goHasPrefix_mkKey, goDropChars_mkKey,
              goDropChars_mkKey_len, hn]
          rw [hred]
          exact ih _ _ hTWrest (Or.inl htail)
        · by_cases httw : goDropChars k pre.length
              = "trim_trailing_whitespace"
          · left
            have httw2 : goDropChars k pre.length
                = "trim_trailing_whitespace" := httw
            simp [overrideLoop, hp, httw, httw2]
          · by_cases hifn : goDropChars k pre.length
                = "insert_final_newline"
            · right
              have hifn2 : goDropChars k pre.length
                  = "insert_final_newline" := hifn
              simp [overrideLoop, hp, hifn, hifn2]
            · simp only [overrideLoop, hp, if_true, htw, httw, hifn,
                ite_false]
              repeat' split
              all_goals exact ih _ _ hTWrest (Or.inl htail)
      · have hb : goHasPrefix k pre = false := by simpa using hp
        simp only [overrideLoop, hb, Bool.false_eq_true, if_false]
        exact ih _ _ hTWrest (Or.inl htail)
    · obtain ⟨hk, hv⟩ := Prod.mk.injEq _ _ _ _ ▸ hhead.symm
      subst hk
      right
      simp [overrideLoop, goHasPrefix_mkKey, goDropChars_mkKey,
        goDropChars_mkKey_len]
    · by_cases hp : goHasPrefix k pre = true
      · by_cases htw : goDropChars k pre.length = "tab_width"
        · have hk2 : k = mkKey pre "tab_width" := by
            rw [key_eq_mkKey k pre hp, htw]
          subst hk2
          obtain ⟨n, hn⟩ := hTW _ v' (List.mem_cons_self _ _)
            (goHasPrefix_mkKey pre _) (goDropChars_mkKey pre _)
          have hred : overrideLoop pre ((mkKey pre "tab_width", v') :: rest) d
              = overrideLoop pre rest
                { d with Raw := mapInsert d.Raw "tab_width" v', TabWidth := n } := by
            simp [overrideLoop, goHasPrefix_mkKey, goDropChars_mkKey,
              goDropChars_mkKey_len, hn]
          rw [hred]
          exact ih _ _ hTWrest (Or.inr htail)
        · by_cases httw : goDropChars k pre.length
              = "trim_trailing_whitespace"
          · left
            have httw2 : goDropChars k pre.length
                = "trim_trailing_whitespace" := httw
            simp [overrideLoop, hp, httw, httw2]
          · by_cases hifn : goDropChars k pre.length
                = "insert_final_newline"
            · right
              have hifn2 : goDropChars k pre.length
                  = "insert_final_newline" := hifn
              simp [overrideLoop, hp, hifn, hifn2]
            · simp only [overrideLoop, hp, if_true, htw, httw, hifn,
                ite_false]
              repeat' split
              all_goals exact ih _ _ hTWrest (Or.inr htail)
      · have hb : goHasPrefix k pre = false := by simpa using hp
        simp only [overrideLoop, hb, Bool.false_eq_true, if_false]
        exact ih _ _ hTWrest (Or.inr htail)

/-- A prefixed `tab_width` entry whose value does not parse as an integer
makes the loop fail. -/
theorem overrideLoop_bad_tab_width_fails (pre : String) :
    ∀ entries (d : ECDefinition) v,
      (mkKey pre "tab_width", v) ∈ entries →
      (∀ n, goAtoi v ≠ Except.ok n) →
      (overrideLoop pre entries d).2.isSome = true := by
  intro entries
  induction entries with
  | nil => intro d v hmem _; simp at hmem
  | cons e rest ih =>
    intro d v hmem hbad
    obtain ⟨k, v'⟩ := e
    rcases List.mem_cons.mp hmem with hhead | htail
    · obtain ⟨hk, hv⟩ := Prod.mk.injEq _ _ _ _ ▸ hhead.symm
      subst hk
      subst hv
      cases hA : goAtoi v' with
      | error e0 =>
        simp [overrideLoop, goHasPrefix_mkKey, goDropChars_mkKey,
          goDropChars_mkKey_len, hA]
      | ok n => exact absurd hA (hbad n)
    · by_cases hp : goHasPrefix k pre = true
      · simp only [overrideLoop, hp, if_true]
        repeat' split
        all_goals first
          | exact ih _ _ htail hbad
          | rfl
      · have hb : goHasPrefix k pre = false := by simpa using hp
        simp only [overrideLoop, hb, Bool.false_eq_true, if_false]
        exact ih _ _ htail hbad

/-- When the loop stops with the not-supported error for key `nk`, the key
is one of the two forbidden ones, a prefixed form of it was among the
entries, and its un-prefixed copy has already been written into the
returned definition's raw map. -/
theorem overrideLoop_notImplemented_raw_written (pre : String) :
    ∀ entries (d d' : ECDefinition) nk,
      overrideLoop pre entries d = (d', some (OvrError.notImplemented nk)) →
      (nk = "trim_trailing_whitespace" ∨ nk = "insert_final_newline") ∧
      ∃ v, (mkKey pre nk, v) ∈ entries ∧ List.lookup nk d'.Raw = some v := by
  intro entries
  induction entries with
  | nil =>
    intro d d' nk h
    simp [overrideLoop] at h
  | cons e rest ih =>
    intro d d' nk h
    obtain ⟨k, v⟩ := e
    by_cases hp : goHasPrefix k pre = true
    · by_cases h1 : goDropChars k pre.length = "indent_style"
      · simp only [overrideLoop, hp, if_true, h1, ite_true] at h
        obtain ⟨hdisj, v0, hmem, hlook⟩ := ih _ _ _ h
        exact ⟨hdisj, v0, List.mem_cons_of_mem _ hmem, hlook⟩
      · by_cases h2 : goDropChars k pre.length = "indent_size"
        · simp only [overrideLoop, hp, if_true, h1, ite_false, h2,
            ite_true] at h
          obtain ⟨hdisj, v0, hmem, hlook⟩ := ih _ _ _ h
          exact ⟨hdisj, v0, List.mem_cons_of_mem _ hmem, hlook⟩
        · by_cases h3 : goDropChars k pre.length = "charset"
          · simp only [overrideLoop, hp, if_true, h1, h2, ite_false, h3,
              ite_true] at h
            obtain ⟨hdisj, v0, hmem, hlook⟩ := ih _ _ _ h
            exact ⟨hdisj, v0, List.mem_cons_of_mem _ hmem, hlook⟩
          · by_cases h4 : goDropChars k pre.length = "end_of_line"
            · simp only [overrideLoop, hp, if_true, h1, h2, h3, ite_false,
                h4, ite_true] at h
              obtain ⟨hdisj, v0, hmem, hlook⟩ := ih _ _ _ h
              exact ⟨hdisj, v0, List.mem_cons_of_mem _ hmem, hlook⟩
            · by_cases h5 : goDropChars k pre.length = "tab_width"
              · cases hA : goAtoi v with
                | error e0 =>
                  simp only [overrideLoop, hp, if_true, h1, h2, h3, h4,
                    ite_false, h5, ite_true, hA] at h
                  simp at h
                | ok n =>
                  simp only [overrideLoop, hp, if_true, h1, h2, h3, h4,
                    ite_false, h5, ite_true, hA] at h
                  obtain ⟨hdisj, v0, hmem, hlook⟩ := ih _ _ _ h
                  exact ⟨hdisj, v0, List.mem_cons_of_mem _ hmem, hlook⟩
              · by_cases h6 : goDropChars k pre.length
                    = "trim_trailing_whitespace"
                · simp [overrideLoop, hp, h1, h2, h3, h4, h5, h6] at h
                  obtain ⟨hd', hnk⟩ := h
                  have hnk2 : nk = "trim_trailing_whitespace" := by
                    first
                      | exact hnk
                      | exact hnk.symm
                  have hdr : d'.Raw
                      = mapInsert d.Raw "trim_trailing_whitespace" v :=
                    congrArg ECDefinition.Raw hd'.symm
                  subst hnk2
                  refine ⟨Or.inl rfl, v, ?_, ?_⟩
                  · rw [key_eq_mkKey k pre hp, h6]
                    exact List.mem_cons_self _ _
                  · rw [hdr]
                    exact lookup_mapInsert_self _ _ _
                · by_cases h7 : goDropChars k pre.length
                      = "insert_final_newline"
                  · simp [overrideLoop, hp, h1, h2, h3, h4, h5, h6, h7] at h
                    obtain ⟨hd', hnk⟩ := h
                    have hnk2 : nk = "insert_final_newline" := by
                      first
                        | exact hnk
                        | exact hnk.symm
                    have hdr : d'.Raw
                        = mapInsert d.Raw "insert_final_newline" v :=
                      congrArg ECDefinition.Raw hd'.symm
                    subst hnk2
                    refine ⟨Or.inr rfl, v, ?_, ?_⟩
                    · rw [key_eq_mkKey k pre hp, h7]
                      exact List.mem_cons_self _ _
                    · rw [hdr]
                      exact lookup_mapInsert_self _ _ _
                  · simp only [overrideLoop, hp, if_true, h1, h2, h3, h4,
                      h5, h6, h7, ite_false] at h
                    obtain ⟨hdisj, v0, hmem, hlook⟩ := ih _ _ _ h
                    exact ⟨hdisj, v0, List.mem_cons_of_mem _ hmem, hlook⟩
    · have hb : goHasPrefix k pre = false := by simpa using hp
      simp only [overrideLoop, hb, Bool.false_eq_true, if_false] at h
      obtain ⟨hdisj, v0, hmem, hlook⟩ := ih _ _ _ h
      exact ⟨hdisj, v0, List.mem_cons_of_mem _ hmem, hlook⟩

/-- A raw map putting the forbidden prefixed key before an allow-listed
one, under the list-modelled iteration order. -/
def c7cexDef : ECDefinition :=
  { IndentStyle := "", IndentSize := "", Charset := "", EndOfLine := "",
    TabWidth := 0, TrimTrailingWhitespace := none, InsertFinalNewline := none,
    Raw := [("p.trim_trailing_whitespace", "true"),
            ("p.indent_style", "tab")] }

/-- C7 counterexample. The claim asserts that with a prefixed
`trim_trailing_whitespace` key present the call returns the not-supported
error AND that every allow-listed prefixed key's typed field is
overwritten; but the loop stops at the first error under Go's unspecified
map iteration order, so with the forbidden key processed first the present
prefixed `indent_style = tab` is never applied. -/
theorem OverrideDefinition_c7_counterexample :
    (OverrideDefinitionUsingPrefix c7cexDef "p.").2
        = some (OvrError.notImplemented "trim_trailing_whitespace") ∧
    ("p.indent_style", "tab") ∈ c7cexDef.Raw ∧
    (OverrideDefinitionUsingPrefix c7cexDef "p.").1.IndentStyle = "" ∧
    ("" : String) ≠ "tab" := by
  refine ⟨?_, ?_, ?_, ?_⟩ <;> decide

/-- C7 (amended). For every definition and prefix: (1) a prefixed
`trim_trailing_whitespace` or `insert_final_newline` key makes the call
fail; (2) when additionally every prefixed `tab_width` value parses as an
integer, the error is the distinct not-supported error; (3) a prefixed
`tab_width` value that does not parse as an integer makes the call fail;
(4) when the keys are unique and the call succeeds, each allow-listed
prefixed key (`indent_style`, `indent_size`, `charset`, `end_of_line`,
`tab_width`) has overwritten its typed field; (5) the typed
`trim_trailing_whitespace` / `insert_final_newline` fields are never
written (such an override is never applied). -/
theorem OverrideDefinitionUsingPrefix_contract
    (d : ECDefinition) (pre : String) :
    (∀ v, ((mkKey pre "trim_trailing_whitespace", v) ∈ d.Raw ∨
           (mkKey pre "insert_final_newline", v) ∈ d.Raw) →
      (OverrideDefinitionUsingPrefix d pre).2.isSome = true) ∧
    (∀ v, ((mkKey pre "trim_trailing_whitespace", v) ∈ d.Raw ∨
           (mkKey pre "insert_final_newline", v) ∈ d.Raw) →
      (∀ k0 tv, (k0, tv) ∈ d.Raw → goHasPrefix k0 pre = true →
        goDropChars k0 pre.length = "tab_width" →
        ∃ n, goAtoi tv = Except.ok n) →
      (OverrideDefinitionUsingPrefix d pre).2
          = some (OvrError.notImplemented "trim_trailing_whitespace") ∨
      (OverrideDefinitionUsingPrefix d pre).2
          = some (OvrError.notImplemented "insert_final_newline")) ∧
    (∀ v, (mkKey pre "tab_width", v) ∈ d.Raw →
      (∀ n, goAtoi v ≠ Except.ok n) →
      (OverrideDefinitionUsingPrefix d pre).2.isSome = true) ∧
    ((d.Raw.map Prod.fst).Nodup →
      (OverrideDefinitionUsingPrefix d pre).2 = none →
      (∀ v, (mkKey pre "indent_style", v) ∈ d.Raw →
        (OverrideDefinitionUsingPrefix d pre).1.IndentStyle = v) ∧
      (∀ v, (mkKey pre "indent_size", v) ∈ d.Raw →
        (OverrideDefinitionUsingPrefix d pre).1.IndentSize = v) ∧
      (∀ v, (mkKey pre "charset", v) ∈ d.Raw →
        (OverrideDefinitionUsingPrefix d pre).1.Charset = v) ∧
      (∀ v, (mkKey pre "end_of_line", v) ∈ d.Raw →
        (OverrideDefinitionUsingPrefix d pre).1.EndOfLine = v) ∧
      (∀ v n, (mkKey pre "tab_width", v) ∈ d.Raw →
        goAtoi v = Except.ok n →
        (OverrideDefinitionUsingPrefix d pre).1.TabWidth = n)) ∧
    ((OverrideDefinitionUsingPrefix d pre).1.TrimTrailingWhitespace
        = d.TrimTrailingWhitespace ∧
     (OverrideDefinitionUsingPrefix d pre).1.InsertFinalNewline
        = d.InsertFinalNewline) := by
  refine ⟨?_, ?_, ?_, ?_, ?_⟩
  · intro v hmem
    exact overrideLoop_errors_of_forbidden pre d.Raw d v hmem
  · intro v hmem hTW
    exact overrideLoop_forbidden_not_supported pre d.Raw d v hTW hmem
  · intro v hmem hbad
    exact overrideLoop_bad_tab_width_fails pre d.Raw d v hmem hbad
  · intro hnd herr
    refine ⟨?_, ?_, ?_, ?_, ?_⟩
    · intro v hmem
      rcases overrideLoop_sets_indentStyle pre d.Raw d v hnd hmem with hs | hs
      · rw [show (OverrideDefinitionUsingPrefix d pre).2
            = (overrideLoop pre d.Raw d).2 from rfl] at herr
        rw [herr] at hs
        simp at hs
      · exact hs
    · intro v hmem
      rcases overrideLoop_sets_indentSize pre d.Raw d v hnd hmem with hs | hs
      · rw [show (OverrideDefinitionUsingPrefix d pre).2
            = (overrideLoop pre d.Raw d).2 from rfl] at herr
        rw [herr] at hs
        simp at hs
      · exact hs
    · intro v hmem
      rcases overrideLoop_sets_charset pre d.Raw d v hnd hmem with hs | hs
      · rw [show (OverrideDefinitionUsingPrefix d pre).2
            = (overrideLoop pre d.Raw d).2 from rfl] at herr
        rw [herr] at hs
        simp at hs
      · exact hs
    · intro v hmem
      rcases overrideLoop_sets_endOfLine pre d.Raw d v hnd hmem with hs | hs
      · rw [show (OverrideDefinitionUsingPrefix d pre).2
            = (overrideLoop pre d.Raw d).2 from rfl] at herr
        rw [herr] at hs
        simp at hs
      · exact hs
    · intro v n hmem hok
      rcases overrideLoop_sets_tabWidth pre d.Raw d v n hnd hmem hok with hs | hs
      · rw [show (OverrideDefinitionUsingPrefix d pre).2
            = (overrideLoop pre d.Raw d).2 from rfl] at herr
        rw [herr] at hs
        simp at hs
      · exact hs
  · exact overrideLoop_never_writes_ttw_ifn pre d.Raw d

/-- Witness for C7's amended theorem: a raw map with only the prefixed
`charset` key resolves without error and overwrites the `Charset` field. -/
theorem OverrideDefinitionUsingPrefix_contract_witness :
    (OverrideDefinitionUsingPrefix
      { IndentStyle := "", IndentSize := "", Charset := "", EndOfLine := "",
        TabWidth := 0, TrimTrailingWhitespace := none,
        InsertFinalNewline := none,
        Raw := [("q.charset", "latin1")] } "q.").1.Charset = "latin1" :=
  ((OverrideDefinitionUsingPrefix_contract
    { IndentStyle := "", IndentSize := "", Charset := "", EndOfLine := "",
      TabWidth := 0, TrimTrailingWhitespace := none,
      InsertFinalNewline := none,
      Raw := [("q.charset", "latin1")] } "q.").2.2.2.1
        (by decide) (by decide)).2.2.1 "latin1" (by decide)

/-- The raw map of C10's concrete exhibit: an allow-listed override
followed by the forbidden key, under the list-modelled iteration order. -/
def c10demoDef : ECDefinition :=
  { IndentStyle := "", IndentSize := "", Charset := "", EndOfLine := "",
    TabWidth := 0, TrimTrailingWhitespace := none, InsertFinalNewline := none,
    Raw := [("p.indent_style", "tab"),
            ("p.trim_trailing_whitespace", "true")] }

/-- C10. `OverrideDefinitionUsingPrefix` is not atomic on failure: whenever
it returns the not-supported error for key `nk`, the un-prefixed copy of
`nk` has already been written into the returned definition's raw map
(general part), and allow-listed overrides processed earlier in the
iteration remain applied, so the definition is not restored to its pre-call
state (concrete part: `indent_style` stays overwritten to `tab` although
the call failed on `trim_trailing_whitespace`). -/
theorem OverrideDefinition_not_atomic_on_failure :
    (∀ (d d' : ECDefinition) (pre nk : String),
      OverrideDefinitionUsingPrefix d pre
          = (d', some (OvrError.notImplemented nk)) →
      (nk = "trim_trailing_whitespace" ∨ nk = "insert_final_newline") ∧
      ∃ v, (mkKey pre nk, v) ∈ d.Raw ∧
        List.lookup nk d'.Raw = some v) ∧
    ((OverrideDefinitionUsingPrefix c10demoDef "p.").2
        = some (OvrError.notImplemented "trim_trailing_whitespace") ∧
     (OverrideDefinitionUsingPrefix c10demoDef "p.").1.IndentStyle = "tab" ∧
     c10demoDef.IndentStyle = "" ∧
     List.lookup "trim_trailing_whitespace"
       (OverrideDefinitionUsingPrefix c10demoDef "p.").1.Raw
         = some "true") := by
  constructor
  · intro d d' pre nk h
    exact overrideLoop_notImplemented_raw_written pre d.Raw d d' nk h
  · refine ⟨?_, ?_, ?_, ?_⟩ <;> decide

/-- Witness for C10's general part at the concrete exhibit. -/
theorem OverrideDefinition_not_atomic_witness :
    ("trim_trailing_whitespace" = "trim_trailing_whitespace" ∨
     "trim_trailing_whitespace" = "insert_final_newline") ∧
    ∃ v, (mkKey "p." "trim_trailing_whitespace", v) ∈ c10demoDef.Raw ∧
      List.lookup "trim_trailing_whitespace"
        (OverrideDefinitionUsingPrefix c10demoDef "p.").1.Raw = some v :=
  OverrideDefinition_not_atomic_on_failure.1 c10demoDef
    (OverrideDefinitionUsingPrefix c10demoDef "p.").1 "p."
    "trim_trailing_whitespace" (by decide)

/-- Go `line[i] != cr && line[i] != lf`: the byte is not a terminator. -/
def nonCRLF (b : Nat) : Bool := (b != cr) && (b != lf)

/-- Go `(line[i] >> 6) == 0b10`: the byte is a UTF-8 continuation byte. -/
def isContByte (b : Nat) : Bool := Nat.shiftRight b 6 == 2

/-- The first loop of `errorAt` (print.go lines 74-85): walk the line up to
the mutable `position` bound, appending every non-CR/LF byte to the buffer
and extending the bound by one for each UTF-8 continuation byte seen. The
first list argument is the still-unscanned suffix `line[i:]`; running out
of it while `i < position` is Go's index-out-of-range panic, modelled as
`none`. The bound is `Int` because Go's position is an `int`. -/
def errorAtLoop1 (line : List Nat) :
    List Nat → Nat → Int → List Nat → Option (List Nat × Int)
  | b :: rest2, i, position, acc =>
    if (i : Int) < position then
      if nonCRLF b then
        errorAtLoop1 line rest2 (i + 1)
          (if isContByte b then position + 1 else position) (acc ++ [b])
      else
        errorAtLoop1 line rest2 (i + 1) position acc
    else some (acc, position)
  | [], i, position, acc =>
    if (i : Int) < position then none else some (acc, position)

/-- The second loop of `errorAt` (print.go lines 96-106): append the
remaining non-CR/LF bytes (the `position` increments in its body are dead).
The list argument is the suffix `line[position+1:]`. -/
def errorAtLoop2 : List Nat → List Nat → List Nat
  | b :: rest, acc =>
    errorAtLoop2 rest (if nonCRLF b then acc ++ [b] else acc)
  | [], acc => acc

/-- The clamp and first walk of `errorAt` (print.go lines 68-85): the
buffer starts as `len(line)` zero bytes because
`bytes.NewBuffer(make([]byte, len(line)))` hands the buffer a slice of that
many zero bytes as initial contents; the position is clamped to the line
length when too large; the walk returns the written bytes and the adjusted
position. -/
def errorAtCore (line : List Nat) (position : Int) :
    Option (List Nat × Int) :=
  let p0 := if position > (line.length : Int) then (line.length : Int)
    else position
  errorAtLoop1 line line 0 p0 (List.replicate line.length 0)

/-- `errorAt` (print.go lines 67-109): highlight the violation position
within the line. `hl` models the aurora `White(s).BgRed().String()`
highlight capability: the identity when colors are disabled, an
escape-sequence wrap when enabled. The highlighted byte is
`line[position:position+1]` only when `position < len(line)-1`, a space
otherwise; a negative position at that point is Go's slice-bounds panic,
modelled as `none`. The buffer-write error returns of the source are dead
code (`bytes.Buffer` writes cannot fail), so the string result is `some`
whenever no panic occurs. -/
def errorAt (line : List Nat) (position : Int)
    (hl : List Nat → List Nat) : Option (List Nat) :=
  match errorAtCore line position with
  | none => none
  | some (acc, p) =>
    if hlt : p < (line.length : Int) - 1 then
      if hpos : 0 ≤ p then
        some (errorAtLoop2 (line.drop (p.toNat + 1))
          (acc ++ hl [line.get ⟨p.toNat, by omega⟩]))
      else none
    else
      some (errorAtLoop2 (line.drop (p.toNat + 1)) (acc ++ hl [32]))

/-- A byte that is a CR or LF is never a UTF-8 continuation byte. -/
theorem isContByte_of_crlf (b : Nat) (h : nonCRLF b = false) :
    isContByte b = false := by
  unfold nonCRLF at h
  have hb : b = cr ∨ b = lf := by
    rcases Bool.and_eq_false_iff.mp h with h0 | h0
    · left
      have := bne_eq_false_iff_eq.mp h0
      exact this
    · right
      have := bne_eq_false_iff_eq.mp h0
      exact this
  rcases hb with rfl | rfl <;> decide

/-- Characterization of a successful first walk: the walk ends at byte
offset `r.2`, which is the starting bound plus the number of continuation
bytes walked over, and the bytes written are exactly the non-CR/LF bytes
of the walked prefix. -/
theorem errorAtLoop1_spec (line : List Nat) :
    ∀ rest i (p : Int) acc r,
      line.drop i = rest → (i : Int) ≤ p → i ≤ line.length →
      errorAtLoop1 line rest i p acc = some r →
      (i : Int) ≤ r.2 ∧ r.2.toNat ≤ line.length ∧
      r.2 = p + (((line.take r.2.toNat).drop i).countP isContByte : Int) ∧
      r.1 = acc ++ ((line.take r.2.toNat).drop i).filter nonCRLF := by
  intro rest
  induction rest with
  | nil =>
    intro i p acc r hdrop hip hil h
    rw [errorAtLoop1] at h
    by_cases hlt : (i : Int) < p
    · rw [if_pos hlt] at h
      simp at h
    · rw [if_neg hlt] at h
      have hr : r = (acc, p) := by
        simpa using h.symm
      subst hr
      have hip2 : (i : Int) = p := le_antisymm hip (not_lt.mp hlt)
      have htake : ((line.take (p.toNat)).drop i) = [] := by
        apply List.drop_eq_nil_of_le
        rw [List.length_take]
        omega
      refine ⟨by omega, by simp only []; omega, ?_, ?_⟩
      · simp only []
        rw [htake]
        simp
      · simp only []
        rw [htake]
        simp
  | cons b rest2 ih =>
    intro i p acc r hdrop hip hil h
    rw [errorAtLoop1] at h
    by_cases hlt : (i : Int) < p
    · rw [if_pos hlt] at h
      have hi : i < line.length := by
        by_contra hcon
        rw [List.drop_eq_nil_of_le (by omega)] at hdrop
        exact List.noConfusion hdrop
      have hdrop2 : line.drop (i + 1) = rest2 := by
        have h1 : (line.drop i).drop 1 = line.drop (i + 1) :=
          List.drop_drop 1 i line
        rw [← h1, hdrop, List.drop_one, List.tail_cons]
      have hconsf : ∀ R : Nat, i < R →
          (line.take R).drop i = b :: (line.take R).drop (i + 1) := by
        intro R hiR
        rw [List.drop_take, List.drop_take, hdrop, hdrop2]
        have hRi : R - i = (R - (i + 1)) + 1 := by omega
        rw [hRi, List.take_succ_cons]
      by_cases hb : nonCRLF b = true
      · rw [if_pos hb] at h
        by_cases hc : isContByte b = true
        · rw [if_pos hc] at h
          have hrec := ih (i + 1) (p + 1) (acc ++ [b]) r hdrop2
            (by omega) (by omega) h
          obtain ⟨h1, h2, h3, h4⟩ := hrec
          have hcons := hconsf r.2.toNat (by omega)
          refine ⟨by omega, h2, ?_, ?_⟩
          · rw [hcons]
            simp only [List.countP_cons, hc]
            push_cast
            omega
          · rw [hcons, List.filter_cons_of_pos hb, h4]
            simp [List.append_assoc]
        · have hc2 : isContByte b = false := by simpa using hc
          rw [if_neg (by simp [hc2])] at h
          have hrec := ih (i + 1) p (acc ++ [b]) r hdrop2
            (by omega) (by omega) h
          obtain ⟨h1, h2, h3, h4⟩ := hrec
          have hcons := hconsf r.2.toNat (by omega)
          refine ⟨by omega, h2, ?_, ?_⟩
          · rw [hcons]
            simp only [List.countP_cons, hc2]
            push_cast
            omega
          · rw [hcons, List.filter_cons_of_pos hb, h4]
            simp [List.append_assoc]
      · have hb2 : nonCRLF b = false := by simpa using hb
        rw [hb2] at h
        simp only [Bool.false_eq_true, if_false] at h
        have hrec := ih (i + 1) p acc r hdrop2 (by omega) (by omega) h
        obtain ⟨h1, h2, h3, h4⟩ := hrec
        have hcons := hconsf r.2.toNat (by omega)
        refine ⟨by omega, h2, ?_, ?_⟩
        · rw [hcons]
          simp only [List.countP_cons, isContByte_of_crlf b hb2]
          push_cast
          omega
        · rw [hcons, List.filter_cons_of_neg (by simp [hb2]), h4]
    · rw [if_neg hlt] at h
      have hr : r = (acc, p) := by
        simpa using h.symm
      subst hr
      have hip2 : (i : Int) = p := le_antisymm hip (not_lt.mp hlt)
      have htake : ((line.take (p.toNat)).drop i) = [] := by
        apply List.drop_eq_nil_of_le
        rw [List.length_take]
        omega
      refine ⟨by omega, by simp only []; omega, ?_, ?_⟩
      · simp only []
        rw [htake]
        simp
      · simp only []
        rw [htake]
        simp

/-- When the line contains no continuation byte, the position bound never
moves, so a bound within the line length makes the first walk total. -/
theorem errorAtLoop1_total (line : List Nat) :
    ∀ rest i (p : Int) acc,
      line.drop i = rest → p ≤ (line.length : Int) →
      (∀ b ∈ line, isContByte b = false) →
      (errorAtLoop1 line rest i p acc).isSome = true := by
  intro rest
  induction rest with
  | nil =>
    intro i p acc hdrop hpl hnc
    have hlen : line.length ≤ i := by
      by_contra hcon
      have := congrArg List.length hdrop
      simp [List.length_drop] at this
      omega
    rw [errorAtLoop1, if_neg (by omega)]
    rfl
  | cons b rest2 ih =>
    intro i p acc hdrop hpl hnc
    have hdrop2 : line.drop (i + 1) = rest2 := by
      have h1 : (line.drop i).drop 1 = line.drop (i + 1) :=
        List.drop_drop 1 i line
      rw [← h1, hdrop, List.drop_one, List.tail_cons]
    have hbmem : b ∈ line := by
      have : b ∈ line.drop i := by
        rw [hdrop]
        exact List.mem_cons_self _ _
      exact List.drop_subset i line this
    rw [errorAtLoop1]
    by_cases hlt : (i : Int) < p
    · rw [if_pos hlt]
      by_cases hb : nonCRLF b = true
      · rw [if_pos hb, hnc b hbmem]
        simp only [Bool.false_eq_true, if_false]
        exact ih (i + 1) p (acc ++ [b]) hdrop2 hpl hnc
      · have hb2 : nonCRLF b = false := by simpa using hb
        rw [hb2]
        simp only [Bool.false_eq_true, if_false]
        exact ih (i + 1) p acc hdrop2 hpl hnc
    · rw [if_neg hlt]
      rfl

/-- The second loop appends exactly the non-CR/LF bytes of its suffix. -/
theorem errorAtLoop2_spec :
    ∀ rest acc, errorAtLoop2 rest acc = acc ++ rest.filter nonCRLF := by
  intro rest
  induction rest with
  | nil => intro acc; simp [errorAtLoop2]
  | cons b rest2 ih =>
    intro acc
    rw [errorAtLoop2]
    by_cases hb : nonCRLF b = true
    · rw [if_pos hb, ih, List.filter_cons_of_pos hb, List.append_assoc]
      rfl
    · have hb2 : nonCRLF b = false := by simpa using hb
      rw [hb2]
      simp only [Bool.false_eq_true, if_false]
      rw [ih, List.filter_cons_of_neg (by simp [hb2])]

/-- A standard UTF-8 well-formedness check (lead-byte ranges with the
right number of continuation bytes), used to state that the inputs of the
rendering counterexamples are well-formed UTF-8. -/
def isValidUTF8 : List Nat → Bool
  | [] => true
  | b :: rest =>
    if b ≤ 127 then isValidUTF8 rest
    else if 194 ≤ b ∧ b ≤ 223 then
      match rest with
      | c1 :: r => decide (128 ≤ c1 ∧ c1 ≤ 191) && isValidUTF8 r
      | [] => false
    else if 224 ≤ b ∧ b ≤ 239 then
      match rest with
      | c1 :: c2 :: r =>
        decide (128 ≤ c1 ∧ c1 ≤ 191 ∧ 128 ≤ c2 ∧ c2 ≤ 191) && isValidUTF8 r
      | _ => false
    else if 240 ≤ b ∧ b ≤ 244 then
      match rest with
      | c1 :: c2 :: c3 :: r =>
        decide (128 ≤ c1 ∧ c1 ≤ 191 ∧ 128 ≤ c2 ∧ c2 ≤ 191 ∧
          128 ≤ c3 ∧ c3 ≤ 191) && isValidUTF8 r
      | _ => false
    else false

/-- C4 counterexample. On the well-formed UTF-8 line `é a` (bytes
`C3 A9 61`) with violation byte position 1, the adjusted highlight offset
is 1, the byte there is the continuation byte `A9`, and with a marker
highlight function the rendered output wraps only that continuation byte -
the highlight starts inside the two-byte character and truncates it
mid-sequence. The continuation-byte skipping only extends the walk bound;
it does not prevent the highlight from landing on a continuation byte. -/
theorem errorAt_highlight_inside_multibyte :
    isValidUTF8 [195, 169, 97] = true ∧
    errorAtCore [195, 169, 97] 1 = some ([0, 0, 0, 195], 1) ∧
    isContByte 169 = true ∧
    errorAt [195, 169, 97] 1 (fun s => 1000 :: s ++ [1001])
      = some [0, 0, 0, 195, 1000, 169, 1001, 97] := by
  refine ⟨?_, ?_, ?_, ?_⟩ <;> decide

/-- C4 (amended). The column walk of `errorAt` treats every byte whose top
two bits are `10` (a UTF-8 continuation byte) as non-advancing, in the
precise sense that the byte offset at which the highlight is placed equals
the clamped requested column plus the number of continuation bytes among
the walked-over prefix. (The claim's conclusion - that the highlighted
region can then never start inside a multi-byte character - does not
follow and is refuted by the counterexample.) -/
theorem errorAt_column_adjustment (line : List Nat) (position : Int)
    (acc : List Nat) (p : Int) (hpos : 0 ≤ position)
    (hcore : errorAtCore line position = some (acc, p)) :
    p = min position (line.length : Int)
        + ((line.take p.toNat).countP isContByte : Int) := by
  have hcore2 : errorAtLoop1 line line 0
      (if position > (line.length : Int) then (line.length : Int)
        else position) (List.replicate line.length 0) = some (acc, p) := hcore
  have hspec := errorAtLoop1_spec line line 0
    (if position > (line.length : Int) then (line.length : Int)
      else position)
    (List.replicate line.length 0) (acc, p) (by simp)
    (by split <;> omega) (by omega) hcore2
  obtain ⟨h1, h2, h3, h4⟩ := hspec
  simp only [List.drop_zero] at h3
  split at h3 <;> omega

/-- Witness for C4's amended theorem at the line `é a`, column 1. -/
theorem errorAt_column_adjustment_witness :
    (1 : Int) = min 1 (([195, 169, 97] : List Nat).length : Int)
      + ((([195, 169, 97] : List Nat).take (1 : Int).toNat).countP
          isContByte : Int) :=
  errorAt_column_adjustment [195, 169, 97] 1 [0, 0, 0, 195] 1
    (by decide) (by decide)

/-- C5 counterexample. The claim says the returned string consists of
exactly the pre-column content, the highlighted character and the
remaining content, with no other bytes; but the buffer is created as
`bytes.NewBuffer(make([]byte, len(line)))`, whose argument is the buffer's
initial contents, so every output is prefixed by `len(line)` zero bytes. -/
theorem errorAt_zero_byte_prefix :
    errorAt [97, 98] 0 (fun s => s) = some [0, 0, 97, 98] ∧
    ([0, 0, 97, 98] : List Nat) ≠ [97, 98] := by
  refine ⟨?_, ?_⟩ <;> decide

/-- C5 (amended). For every line and non-negative violation column on
which the first walk stays in bounds, `errorAt` returns exactly:
`len(line)` zero bytes (the buffer preallocation), then the line's content
before the adjusted column with CR and LF bytes removed, then the
highlight applied to the single byte at the adjusted column - or to a
placeholder space if and only if the adjusted column is at or beyond
`len(line) - 1` - then the remaining content after the adjusted column
with CR and LF bytes removed. -/
theorem errorAt_output_characterization (line : List Nat) (position : Int)
    (hl : List Nat → List Nat) (acc : List Nat) (p : Int)
    (hpos : 0 ≤ position)
    (hcore : errorAtCore line position = some (acc, p)) :
    errorAt line position hl
      = some (List.replicate line.length 0
          ++ (line.take p.toNat).filter nonCRLF
          ++ hl (if p < (line.length : Int) - 1
              then [line.getD p.toNat 0] else [32])
          ++ (line.drop (p.toNat + 1)).filter nonCRLF) := by
  have hcore2 : errorAtLoop1 line line 0
      (if position > (line.length : Int) then (line.length : Int)
        else position) (List.replicate line.length 0) = some (acc, p) := hcore
  have hspec := errorAtLoop1_spec line line 0
    (if position > (line.length : Int) then (line.length : Int)
      else position)
    (List.replicate line.length 0) (acc, p) (by simp)
    (by split <;> omega) (by omega) hcore2
  obtain ⟨h1, h2, h3, h4⟩ := hspec
  simp only [List.drop_zero] at h4
  have hp0 : (0 : Int) ≤ p := by
    have := h1
    simp only [] at this
    omega
  unfold errorAt
  rw [hcore]
  simp only []
  by_cases hlt : p < (line.length : Int) - 1
  · rw [dif_pos hlt, dif_pos hp0, if_pos hlt]
    rw [errorAtLoop2_spec, h4]
    have hplen : p.toNat < line.length := by omega
    simp [List.getD_eq_getElem, hplen, List.append_assoc]
  · rw [dif_neg hlt, if_neg hlt]
    rw [errorAtLoop2_spec, h4]

/-- Witness for C5's amended theorem at the line `a\rb\n`, column 3. -/
theorem errorAt_output_characterization_witness :
    errorAt [97, 13, 98, 10] 3 (fun s => s)
      = some (List.replicate ([97, 13, 98, 10] : List Nat).length 0
          ++ (([97, 13, 98, 10] : List Nat).take (3 : Int).toNat).filter
              nonCRLF
          ++ (fun s => s)
              (if (3 : Int) < ((([97, 13, 98, 10] : List Nat).length : Nat)
                  : Int) - 1
               then [([97, 13, 98, 10] : List Nat).getD (3 : Int).toNat 0]
               else [32])
          ++ (([97, 13, 98, 10] : List Nat).drop
              ((3 : Int).toNat + 1)).filter nonCRLF) :=
  errorAt_output_characterization [97, 13, 98, 10] 3 (fun s => s)
    [0, 0, 0, 0, 97, 98] 3 (by decide) (by decide)

/-- C9 counterexample. The claim says `errorAt` terminates without
out-of-bounds access for every byte slice and every position at least 0;
but on a line of two continuation bytes with position 1, each walked
continuation byte extends the walk bound by one, so the index reaches the
line length while still below the bound and Go panics with an index out of
range (modelled as `none`). -/
theorem errorAt_continuation_overrun :
    errorAt [128, 128] 1 (fun s => s) = none := by decide

/-- C9 (amended: restricted to lines without continuation bytes). For
every line containing no UTF-8 continuation byte and every position at
least 0, `errorAt` terminates without any out-of-bounds access (positions
beyond the line length are clamped) and returns a result; the error return
of the source is always nil (buffer writes cannot fail). -/
theorem errorAt_no_oob (line : List Nat) (position : Int)
    (hl : List Nat → List Nat) (hpos : 0 ≤ position)
    (hnc : ∀ b ∈ line, isContByte b = false) :
    (errorAt line position hl).isSome = true := by
  have htot := errorAtLoop1_total line line 0
    (if position > (line.length : Int) then (line.length : Int)
      else position)
    (List.replicate line.length 0) (by simp) (by split <;> omega) hnc
  obtain ⟨r, hr⟩ := Option.isSome_iff_exists.mp htot
  obtain ⟨acc, p⟩ := r
  have hcore : errorAtCore line position = some (acc, p) := hr
  have hspec := errorAtLoop1_spec line line 0
    (if position > (line.length : Int) then (line.length : Int)
      else position)
    (List.replicate line.length 0) (acc, p) (by simp)
    (by split <;> omega) (by omega) hr
  have hp0 : (0 : Int) ≤ p := by
    have := hspec.1
    simp only [] at this
    omega
  unfold errorAt
  rw [hcore]
  simp only []
  by_cases hlt : p < (line.length : Int) - 1
  · rw [dif_pos hlt, dif_pos hp0]
    rfl
  · rw [dif_neg hlt]
    rfl

/-- Witness for C9's amended theorem on the plain ASCII line `abc`. -/
theorem errorAt_no_oob_witness :
    (errorAt [97, 98, 99] 1 (fun s => s)).isSome = true :=
  errorAt_no_oob [97, 98, 99] 1 (fun s => s) (by decide) (by decide)

/-- Modelled from the spec: `validationError` is declared outside the
given files; print.go reads the fields used here ("Violation (historically
validationError) - one rule failure: line_index, byte_position (1-based
column within the line, for display), message, and a reference to the
offending line's bytes"). Go `int` fields are `Int`. -/
structure ValidationError where
  error : String
  index : Int
  position : Int
  line : List Nat
deriving DecidableEq

/-- A non-nil entry of the `[]error` slice handed to `PrintErrors`: either
a `validationError` (the type assertion succeeds) or any other error,
printed via its message. -/
inductive LintError where
  | validation (ve : ValidationError)
  | generic (msg : String)
deriving DecidableEq

/-- One line written to stdout by `PrintErrors`: ordinary text, or the raw
bytes of an `errorAt`-rendered line. -/
inductive OutLine where
  | text (s : String)
  | rendered (b : List Nat)
deriving DecidableEq

/-- Modelled from the spec: the fields of the eclint `Option` struct
(declared outside the given files) that `PrintErrors` reads, with the
aurora color value represented by the string/byte transformations it
provides - each is the identity when colors are disabled
(`aurora.NewAurora(false)` renders values unchanged), an escape-sequence
wrap when enabled. -/
structure EclintOption where
  Summary : Bool
  ShowErrorQuantity : Int
  magenta : String → String
  green : String → String
  brightRed : String → String
  highlight : List Nat → List Nat

/-- The loop of `PrintErrors` (print.go lines 20-54): `errsLen` is
`len(errors)` and `counter` counts the non-nil errors already counted. A
nil error is skipped. Otherwise: the `<filename>:` header is printed
before the first counted error unless in summary mode; a
`validationError` renders its two detail lines via `errorAt` at
`position-1` unless in summary mode (an `errorAt` panic propagates as
`none`; its error return is always nil, making the early `return err`
dead code); any other error prints its message even in summary mode.
Then, when `counter >= opt.ShowErrorQuantity && len(errors) > counter`,
the skip message is printed and the loop breaks without counting the
current error; otherwise the counter increments. -/
def peLoop (opt : EclintOption) (filename : String) (errsLen : Nat) :
    List (Option LintError) → Nat → List OutLine →
    Option (List OutLine × Nat)
  | [], counter, out => some (out, counter)
  | none :: rest, counter, out => peLoop opt filename errsLen rest counter out
  | some e :: rest, counter, out =>
    let out := if counter = 0 ∧ opt.Summary = false
      then out ++ [OutLine.text (opt.magenta filename ++ ":")] else out
    let step : Option (List OutLine) :=
      match e with
      | LintError.validation ve =>
        if opt.Summary = false then
          match errorAt ve.line (ve.position - 1) opt.highlight with
          | none => none
          | some l =>
            some (out
              ++ [OutLine.text (opt.green (toString ve.index) ++ ":"
                    ++ opt.green (toString ve.position) ++ ": " ++ ve.error),
                  OutLine.rendered l])
        else some out
      | LintError.generic msg => some (out ++ [OutLine.text msg])
    match step with
    | none => none
    | some out2 =>
      if (counter : Int) ≥ opt.ShowErrorQuantity ∧ errsLen > counter then
        some (out2 ++ [OutLine.text (" ... skipping at most "
          ++ opt.brightRed (toString ((errsLen : Int) - (counter : Int)))
          ++ " errors")], counter)
      else peLoop opt filename errsLen rest (counter + 1) out2

/-- `PrintErrors` (print.go lines 12-64): after the loop, a positive
counter prints a blank line, or, in summary mode, the
`<filename>: <N> errors` line. The returned value is the ordered list of
lines written to stdout (`none` models the `errorAt` panic). -/
def PrintErrors (opt : EclintOption) (filename : String)
    (errors : List (Option LintError)) : Option (List OutLine) :=
  match peLoop opt filename errors.length errors 0 [] with
  | none => none
  | some (out, counter) =>
    if counter > 0 then
      if opt.Summary = false then some (out ++ [OutLine.text ""])
      else some (out ++ [OutLine.text (opt.magenta filename ++ ": "
        ++ toString counter ++ " errors")])
    else some out

/-- Unfolding of `peLoop` at a non-nil head (the automatic equation
lemmas do not cover the nested lets/matches). -/
theorem peLoop_cons_some_eq (opt : EclintOption) (filename : String)
    (errsLen : Nat) (e : LintError) (rest : List (Option LintError))
    (counter : Nat) (out : List OutLine) :
    peLoop opt filename errsLen (some e :: rest) counter out
      = (let out1 := if counter = 0 ∧ opt.Summary = false
           then out ++ [OutLine.text (opt.magenta filename ++ ":")] else out
         let step : Option (List OutLine) :=
           match e with
           | LintError.validation ve =>
             if opt.Summary = false then
               match errorAt ve.line (ve.position - 1) opt.highlight with
               | none => none
               | some l =>
                 some (out1
                   ++ [OutLine.text (opt.green (toString ve.index) ++ ":"
                         ++ opt.green (toString ve.position) ++ ": "
                         ++ ve.error),
                       OutLine.rendered l])
             else some out1
           | LintError.generic msg => some (out1 ++ [OutLine.text msg])
         match step with
         | none => none
         | some out2 =>
           if (counter : Int) ≥ opt.ShowErrorQuantity ∧ errsLen > counter then
             some (out2 ++ [OutLine.text (" ... skipping at most "
               ++ opt.brightRed (toString ((errsLen : Int) - (counter : Int)))
               ++ " errors")], counter)
           else peLoop opt filename errsLen rest (counter + 1) out2) := rfl

/-- In summary mode, with only validation errors and the count within the
display bound, the loop writes nothing and counts every non-nil error. -/
theorem peLoop_summary (opt : EclintOption) (filename : String)
    (errsLen : Nat) (hs : opt.Summary = true) :
    ∀ (errs : List (Option LintError)) (counter : Nat) (out : List OutLine),
      (∀ e, some e ∈ errs → ∃ ve, e = LintError.validation ve) →
      ((counter : Int) + (errs.countP Option.isSome : Int)
          ≤ opt.ShowErrorQuantity) →
      peLoop opt filename errsLen errs counter out
        = some (out, counter + errs.countP Option.isSome) := by
  intro errs
  induction errs with
  | nil => intro counter out _ _; rfl
  | cons e rest ih =>
    intro counter out hval hcnt
    cases e with
    | none =>
      have hstep : peLoop opt filename errsLen (none :: rest) counter out
          = peLoop opt filename errsLen rest counter out := rfl
      have hrec := ih counter out
        (fun e he => hval e (List.mem_cons_of_mem _ he))
        (by simpa using hcnt)
      rw [hstep, hrec]
      simp
    | some e0 =>
      obtain ⟨ve, he0⟩ := hval e0 (List.mem_cons_self _ _)
      subst he0
      have hcount : ((some (LintError.validation ve) :: rest).countP
          Option.isSome) = rest.countP Option.isSome + 1 := by
        simp [List.countP_cons]
      have hskip : ¬ ((counter : Int) ≥ opt.ShowErrorQuantity
          ∧ errsLen > counter) := by
        rintro ⟨hge, _⟩
        rw [hcount] at hcnt
        push_cast at hcnt
        omega
      have hrec := ih (counter + 1) out
        (fun e he => hval e (List.mem_cons_of_mem _ he))
        (by rw [hcount] at hcnt; push_cast at hcnt ⊢; omega)
      rw [peLoop_cons_some_eq]
      simp only [hs, Bool.true_eq_false, and_false, if_false, ite_false,
        if_neg hskip]
      rw [hrec, hcount]
      have h2 : counter + 1 + rest.countP Option.isSome
          = counter + (rest.countP Option.isSome + 1) := by omega
      rw [h2]

/-- C6's concrete option set: summary mode, the default display quantity
of 10, colors disabled. -/
def c6cexOpt : EclintOption :=
  { Summary := true, ShowErrorQuantity := 10,
    magenta := fun s => s, green := fun s => s, brightRed := fun s => s,
    highlight := fun b => b }

/-- C6's concrete error list: twelve validation errors. -/
def c6cexErrors : List (Option LintError) :=
  List.replicate 12 (some (LintError.validation
    { error := "x", index := 1, position := 1, line := [] }))

/-- C6 counterexample. With twelve non-nil validation errors and the
default display quantity of 10, summary mode emits TWO lines - the
"skipping" line (not gated on summary mode) and then a summary line
reporting 10, not 12, because the loop breaks before counting the
remaining errors. The claim's single line `<filename>: 12 errors` is not
produced. -/
theorem PrintErrors_summary_miscount :
    PrintErrors c6cexOpt "f" c6cexErrors
      = some [OutLine.text " ... skipping at most 2 errors",
              OutLine.text "f: 10 errors"] ∧
    c6cexErrors.countP Option.isSome = 12 := by
  refine ⟨?_, ?_⟩ <;> decide

/-- C6 (amended). In summary mode, for every file whose error list
contains at least one non-nil error, all of whose non-nil errors are
validation errors, and whose count N of non-nil errors does not exceed
ShowErrorQuantity, PrintErrors renders no per-violation detail and emits
exactly one line `<filename>: <N> errors`. (With more than
ShowErrorQuantity errors the skip line is also emitted and the reported
count is capped; a non-validationError is printed even in summary mode.) -/
theorem PrintErrors_summary_single_line (opt : EclintOption)
    (filename : String) (errors : List (Option LintError)) (N : Nat)
    (hs : opt.Summary = true)
    (hval : ∀ e, some e ∈ errors → ∃ ve, e = LintError.validation ve)
    (hN : errors.countP Option.isSome = N)
    (hpos : 1 ≤ N)
    (hbound : (N : Int) ≤ opt.ShowErrorQuantity) :
    PrintErrors opt filename errors
      = some [OutLine.text (opt.magenta filename ++ ": "
          ++ toString N ++ " errors")] := by
  unfold PrintErrors
  rw [peLoop_summary opt filename errors.length hs errors 0 [] hval
    (by rw [hN]; push_cast; omega)]
  simp only [hN, Nat.zero_add]
  rw [if_pos (by omega : N > 0)]
  rw [if_neg (by simp [hs])]
  simp

/-- Witness for C6's amended theorem: two validation errors and one nil
entry give the single line `f: 2 errors`. -/
theorem PrintErrors_summary_single_line_witness :
    PrintErrors c6cexOpt "f"
      [some (LintError.validation
          { error := "m", index := 1, position := 2, line := [] }),
        none,
        some (LintError.validation
          { error := "m2", index := 2, position := 3, line := [] })]
      = some [OutLine.text (c6cexOpt.magenta "f" ++ ": "
          ++ toString 2 ++ " errors")] :=
  PrintErrors_summary_single_line c6cexOpt "f" _ 2 rfl
    (by
      intro e he
      simp only [List.mem_cons] at he
      rcases he with he | he | he
      · exact ⟨_, Option.some.inj he⟩
      · exact absurd he (by simp)
      · rcases he with he | he
        · exact ⟨_, Option.some.inj he⟩
        · exact absurd he (by simp))
    (by decide) (by decide) (by decide)

end Eclint
